import Mathlib

/-!
# Load balancer: round-robin and weighted least-connections selection, retry and failover

A shallow embedding of `src/main.go` and `src/server/serverInfo.go`.

* A `*Backend` is identified by its position in `ServerPool.Backends` (every entry of the
  slice is a distinct allocation made by `configRR` / `configLC`), so functions that return
  a `*Backend` return an index here, and `nil` is `none`.
* `ServerPool.current` is a `uint64`; `atomic.AddUint64` wraps modulo `2 ^ 64`.
* `Backend.connections` is an `int64`; `atomic.AddInt64` wraps into `[-2 ^ 63, 2 ^ 63)`.
* `int` index arithmetic is exact: a slice has fewer than `2 ^ 62` elements.
-/

namespace LoadBalancer

/-! ## Data model (main.go, lines 23-49) -/

/-- The `Backend` struct. `URL` is the rendering `URL.String()`, the only way the code
looks at it; `ReverseProxy` is behaviour and is modelled by `serveHTTP` further down. -/
structure Backend where
  URL : String
  Alive : Bool
  connections : Int
  weights : Int
  deriving DecidableEq

/-- The `ServerPool` struct. -/
structure ServerPool where
  Backends : List Backend
  current : Nat
  deriving DecidableEq

/-- Liveness of the backend at a slice index: `s.Backends[ind].IsAlive()`. -/
def aliveAt (bs : List Backend) (ind : Nat) : Bool :=
  match bs[ind]? with
  | some b => b.Alive
  | none => false

/-- Wrap-around of `uint64` arithmetic. -/
def wrapU64 (n : Nat) : Nat := n % 2 ^ 64

/-- Wrap-around of `int64` arithmetic (two's complement). -/
def wrapI64 (i : Int) : Int := (i + 2 ^ 63) % 2 ^ 64 - 2 ^ 63

/-! ## Round-robin selection (main.go, lines 51-66) -/

/-- `NextIndex`: `atomic.AddUint64(&s.current, 1) % uint64(len(s.Backends))`.
The cursor is advanced first; the modulo panics (integer divide by zero) on an empty
pool, which is the `none` result. -/
def NextIndex (s : ServerPool) : Option Nat × ServerPool :=
  let c := wrapU64 (s.current + 1)
  let s1 : ServerPool := { s with current := c }
  if s.Backends.length = 0 then (none, s1) else (some (c % s.Backends.length), s1)

/-- The `for i := next; i < l; i++` loop of `GetNextPeer`; `k` is the number of
iterations left (`l - i`). Returns the first alive index met, if any. -/
def scanFrom (bs : List Backend) : Nat → Nat → Option Nat
  | _, 0 => none
  | i, k + 1 =>
    let ind := i % bs.length
    if aliveAt bs ind then some ind else scanFrom bs (i + 1) k

/-- `GetNextPeer`. The outer `Option` is `none` when the call panics (empty pool); the
inner one is the returned `*Backend` (`none` for `nil`). On a hit the index is stored
in the cursor. -/
def GetNextPeer (s : ServerPool) : Option (Option Nat) × ServerPool :=
  match NextIndex s with
  | (none, s1) => (none, s1)
  | (some next, s1) =>
    match scanFrom s1.Backends next s1.Backends.length with
    | some ind => (some (some ind), { s1 with current := ind })
    | none => (some none, s1)

/-- The results of `m` consecutive sequential `GetNextPeer` calls on a pool nobody else
touches. -/
def callsGetNextPeer : Nat → ServerPool → List (Option (Option Nat))
  | 0, _ => []
  | m + 1, s => (GetNextPeer s).1 :: callsGetNextPeer m (GetNextPeer s).2

/-! ## Weighted least-connections selection (main.go, lines 68-80)

`float64` values are modelled exactly: a finite value is the rational number it denotes
(the two zeros are identified; every zero the code produces is `+0`), and conversion and
division round to nearest, ties to even, with a 53-bit significand, gradual underflow
below `2 ^ (-1022)` and overflow to an infinity from `2 ^ 1024` on. -/

/-- An IEEE-754 binary64 value. -/
inductive F64 where
  | fin (q : ℚ)
  | pinf
  | ninf
  | nan
  deriving DecidableEq

/-- Round a non-negative rational to the nearest integer, ties to the even one. -/
def roundHalfEven (q : ℚ) : ℤ :=
  let f := ⌊q⌋
  let r := q - f
  if r < 1 / 2 then f
  else if 1 / 2 < r then f + 1
  else if f % 2 = 0 then f else f + 1

/-- Round a rational to the binary64 grid (53 significant bits, least exponent `-1022`),
before the overflow check. -/
def roundQ (x : ℚ) : ℚ :=
  if x = 0 then 0 else
    let e := max (Int.log 2 |x|) (-1022)
    let ulp : ℚ := 2 ^ (e - 52)
    let y : ℚ := (roundHalfEven (|x| / ulp) : ℚ) * ulp
    if 0 < x then y else -y

/-- The binary64 value nearest to a rational. -/
def F64.ofRat (x : ℚ) : F64 :=
  let y := roundQ x
  if 2 ^ 1024 ≤ y then F64.pinf else if y ≤ -(2 ^ 1024) then F64.ninf else F64.fin y

/-- The conversion `float64(i)` of an integer. -/
def F64.ofInt (i : Int) : F64 := F64.ofRat i

/-- Binary64 division `a / b`. A zero divisor is `+0`. -/
def F64.div : F64 → F64 → F64
  | F64.fin a, F64.fin b =>
    if b = 0 then (if a = 0 then F64.nan else if 0 < a then F64.pinf else F64.ninf)
    else F64.ofRat (a / b)
  | F64.fin _, F64.pinf => F64.fin 0
  | F64.fin _, F64.ninf => F64.fin 0
  | F64.pinf, F64.fin b => if 0 ≤ b then F64.pinf else F64.ninf
  | F64.ninf, F64.fin b => if 0 ≤ b then F64.ninf else F64.pinf
  | _, _ => F64.nan

/-- The comparison `a > b` of binary64 values; false whenever a NaN is involved. -/
def F64.gt : F64 → F64 → Bool
  | F64.fin a, F64.fin b => decide (b < a)
  | F64.fin _, F64.ninf => true
  | F64.pinf, F64.fin _ => true
  | F64.pinf, F64.ninf => true
  | _, _ => false

/-- The constant `math.MaxFloat64`. -/
def MaxFloat64 : F64 := F64.fin ((2 ^ 53 - 1) * 2 ^ 971)

/-- The expression `float64(atomic.LoadInt64(&b.connections)) / float64(b.weights)`. -/
def ratioOf (b : Backend) : F64 := F64.div (F64.ofInt b.connections) (F64.ofInt b.weights)

/-- The `for _, b := range s.Backends` loop of `GetNextPeerForLeastConnections`: `i` is
the index of the head of the remaining slice, `min` and `peer` are the loop variables. -/
def leastLoop : List Backend → Nat → F64 → Option Nat → Option Nat
  | [], _, _, peer => peer
  | b :: bs, i, min, peer =>
    if b.Alive then
      if F64.gt min (ratioOf b) then leastLoop bs (i + 1) (ratioOf b) (some i)
      else leastLoop bs (i + 1) min peer
    else leastLoop bs (i + 1) min peer

/-- `GetNextPeerForLeastConnections`. -/
def GetNextPeerForLeastConnections (s : ServerPool) : Option Nat :=
  leastLoop s.Backends 0 MaxFloat64 none

/-! ## Pool maintenance (main.go, lines 82-93) -/

/-- `AddBackend`. -/
def AddBackend (s : ServerPool) (b : Backend) : ServerPool :=
  { s with Backends := s.Backends ++ [b] }

/-- The loop of `MarkBackendStatus`: the first backend whose URL renders like
`backendUrl` gets the new liveness, then the loop breaks. -/
def markFirst : List Backend → String → Bool → List Backend
  | [], _, _ => []
  | b :: bs, backendUrl, alive =>
    if b.URL = backendUrl then { b with Alive := alive } :: bs
    else b :: markFirst bs backendUrl alive

/-- `MarkBackendStatus`. -/
def MarkBackendStatus (s : ServerPool) (backendUrl : String) (alive : Bool) : ServerPool :=
  { s with Backends := markFirst s.Backends backendUrl alive }

/-- `atomic.AddInt64(&s.Backends[peer].connections, delta)`. -/
def addConnections : List Backend → Nat → Int → List Backend
  | [], _, _ => []
  | b :: bs, 0, delta => { b with connections := wrapI64 (b.connections + delta) } :: bs
  | b :: bs, peer + 1, delta => b :: addConnections bs peer delta

/-- The URL captured by the error handler of the backend at an index (`serverUrl`). -/
def urlAt (bs : List Backend) (peer : Nat) : String :=
  match bs[peer]? with
  | some b => b.URL
  | none => ""

/-! ## Request context (main.go, lines 18-21 and 107-119) -/

/-- The two context values a request carries; `none` is "not set". They are only ever
set by the error handlers, to a successor. -/
structure Request where
  attempts : Option Nat
  retry : Option Nat
  deriving DecidableEq

/-- `GetRetryFromContext`. -/
def GetRetryFromContext (r : Request) : Nat := r.retry.getD 0

/-- `GetAttemptsFromContext`. -/
def GetAttemptsFromContext (r : Request) : Nat := r.attempts.getD 1

/-- A fresh client request: no context value set. -/
def Request.fresh : Request := ⟨none, none⟩

/-! ## Dispatch, retry and failover (main.go, lines 144-177, 195-214, 240-259) -/

/-- What a run of a handler does that can be seen from outside. -/
inductive Event where
  /-- One invocation of `ReverseProxy.ServeHTTP` on `Backends[idx]`, with the values of
  the request context at that moment. -/
  | proxy (idx attempts retries : Nat)
  /-- The backend answered and its response was copied to the client. -/
  | served (idx : Nat)
  /-- The call `http.Error(w, ..., http.StatusServiceUnavailable)`: a 503 response. -/
  | unavailable
  /-- A run-time panic (integer divide by zero on an empty pool). -/
  | panicked
  deriving DecidableEq

/-- The outcome of the transport round trip inside `ReverseProxy.ServeHTTP`, which
the program does not control: given what happened so far and the backend index, `true`
when the backend answers and `false` on a transport error. -/
abbrev Transport := List Event → Nat → Bool

/-- The state threaded through a run: the pool, the events so far (oldest first) and
every value the pool took after a write (oldest first). -/
structure St where
  pool : ServerPool
  log : List Event
  history : List ServerPool
  deriving DecidableEq

/-- Record an event. -/
def St.emit (st : St) (e : Event) : St := { st with log := st.log ++ [e] }

/-- Replace the pool by a new value and record it. -/
def St.write (st : St) (p : ServerPool) : St :=
  { st with pool := p, history := st.history ++ [p] }

/-- The state in which a run starts. -/
def St.init (p : ServerPool) : St := ⟨p, [], []⟩

mutual

/-- The handler `lb`. The first argument bounds the depth of the call chain; `none`
means the bound was reached. -/
def lb : Nat → Transport → Request → St → Option St
  | 0, _, _, _ => none
  | fuel + 1, tr, r, st =>
    let attempts := GetAttemptsFromContext r
    if attempts > 3 then some (st.emit Event.unavailable)
    else
      match GetNextPeer st.pool with
      | (none, p) => some ((st.write p).emit Event.panicked)
      | (some (some peer), p) => serveHTTPRR fuel tr peer r (st.write p)
      | (some none, p) => some ((st.write p).emit Event.unavailable)

/-- The call `ReverseProxy.ServeHTTP(w, r)` on the proxy `configRR` built for
`Backends[peer]`: one round trip, and on a transport error the `ErrorHandler`. -/
def serveHTTPRR : Nat → Transport → Nat → Request → St → Option St
  | 0, _, _, _, _ => none
  | fuel + 1, tr, peer, r, st =>
    let st1 := st.emit (Event.proxy peer (GetAttemptsFromContext r) (GetRetryFromContext r))
    if tr st1.log peer then some (st1.emit (Event.served peer))
    else errorHandlerRR fuel tr peer r st1

/-- The `proxy.ErrorHandler` closure `configRR` installs for `Backends[peer]`. -/
def errorHandlerRR : Nat → Transport → Nat → Request → St → Option St
  | 0, _, _, _, _ => none
  | fuel + 1, tr, peer, r, st =>
    let retries := GetRetryFromContext r
    if retries < 3 then serveHTTPRR fuel tr peer { r with retry := some (retries + 1) } st
    else
      let st1 := st.write (MarkBackendStatus st.pool (urlAt st.pool.Backends peer) false)
      let attempts := GetAttemptsFromContext r
      lb fuel tr { r with attempts := some (attempts + 1) } st1

end

mutual

/-- The handler `lbWithLeastConnections`. The decrement is the deferred call: it runs
when `ServeHTTP` has returned, whatever happened inside. -/
def lbWithLeastConnections : Nat → Transport → Request → St → Option St
  | 0, _, _, _ => none
  | fuel + 1, tr, r, st =>
    let attempts := GetAttemptsFromContext r
    if attempts > 3 then some (st.emit Event.unavailable)
    else
      match GetNextPeerForLeastConnections st.pool with
      | some peer =>
        let st1 := st.write { st.pool with Backends := addConnections st.pool.Backends peer 1 }
        match serveHTTPLC fuel tr peer r st1 with
        | some st2 =>
          some (st2.write { st2.pool with Backends := addConnections st2.pool.Backends peer (-1) })
        | none => none
      | none => some (st.emit Event.unavailable)

/-- The call `ReverseProxy.ServeHTTP(w, r)` on the proxy `configLC` built for
`Backends[peer]`. -/
def serveHTTPLC : Nat → Transport → Nat → Request → St → Option St
  | 0, _, _, _, _ => none
  | fuel + 1, tr, peer, r, st =>
    let st1 := st.emit (Event.proxy peer (GetAttemptsFromContext r) (GetRetryFromContext r))
    if tr st1.log peer then some (st1.emit (Event.served peer))
    else errorHandlerLC fuel tr peer r st1

/-- The `proxy.ErrorHandler` closure `configLC` installs for `Backends[peer]`. -/
def errorHandlerLC : Nat → Transport → Nat → Request → St → Option St
  | 0, _, _, _, _ => none
  | fuel + 1, tr, peer, r, st =>
    let retries := GetRetryFromContext r
    if retries < 3 then serveHTTPLC fuel tr peer { r with retry := some (retries + 1) } st
    else
      let st1 := st.write (MarkBackendStatus st.pool (urlAt st.pool.Backends peer) false)
      let attempts := GetAttemptsFromContext r
      lbWithLeastConnections fuel tr { r with attempts := some (attempts + 1) } st1

end

/-- A transport on which every round trip fails. -/
def alwaysFails : Transport := fun _ _ => false

/-! ## Configuration (serverInfo.go, lines 9-16; main.go, lines 187-223 and 233-268) -/

/-- One element of `ServerInfos.Backends`. -/
structure BackendInfo where
  Url : String
  Weight : Int
  deriving DecidableEq

/-- The `ServerInfos` struct. -/
structure ServerInfos where
  Port : Int
  Strategy : String
  Backends : List BackendInfo
  deriving DecidableEq

/-- The loop `for _, tok := range serverInfo.Backends` shared by `configRR` and
`configLC`. `parse` is `url.Parse` followed by `String()`; a parse error ends the
process (`log.Fatal`), which is the `none` result. -/
def configLoop (parse : String → Option String) : List BackendInfo → ServerPool → Option ServerPool
  | [], pool => some pool
  | tok :: rest, pool =>
    match parse tok.Url with
    | none => none
    | some serverUrl =>
      configLoop parse rest
        (AddBackend pool
          { URL := serverUrl, Alive := true, connections := 0, weights := tok.Weight })

/-- The pool `configRR` builds before it starts listening. -/
def configRR (parse : String → Option String) (serverInfo : ServerInfos) (pool : ServerPool) :
    Option ServerPool :=
  configLoop parse serverInfo.Backends pool

/-- The pool `configLC` builds before it starts listening. -/
def configLC (parse : String → Option String) (serverInfo : ServerInfos) (pool : ServerPool) :
    Option ServerPool :=
  configLoop parse serverInfo.Backends pool

/-! ## Sample pools and predicates used in the statements below -/

/-- The pool `[A(dead), B(alive), C(alive)]` with a given cursor. -/
def poolDeadAliveAlive (c : Nat) : ServerPool :=
  ⟨[⟨"A", false, 0, 1⟩, ⟨"B", true, 0, 1⟩, ⟨"C", true, 0, 1⟩], c⟩

/-- Three alive backends and the cursor at the largest `uint64`. -/
def poolWrap : ServerPool :=
  ⟨[⟨"A", true, 0, 1⟩, ⟨"B", true, 0, 1⟩, ⟨"C", true, 0, 1⟩], 2 ^ 64 - 1⟩

/-- Three alive, idle backends of weight 1, as `configRR` / `configLC` leave them. -/
def poolThree : ServerPool :=
  ⟨[⟨"A", true, 0, 1⟩, ⟨"B", true, 0, 1⟩, ⟨"C", true, 0, 1⟩], 0⟩

/-- Two alive backends configured with the same URL. -/
def poolDup : ServerPool := ⟨[⟨"u", true, 0, 1⟩, ⟨"u", true, 0, 1⟩], 0⟩

/-- One alive backend whose counter is at the largest `int64`. -/
def poolMax : ServerPool := ⟨[⟨"A", true, 2 ^ 63 - 1, 1⟩], 0⟩

/-- A transport on which every round trip succeeds. -/
def alwaysSucceeds : Transport := fun _ _ => true

/-- The fields of a backend are `int64` values and the weight is positive. -/
def Backend.PositiveWeight (b : Backend) : Prop :=
  (-(2 ^ 63) ≤ b.connections ∧ b.connections < 2 ^ 63) ∧ (0 < b.weights ∧ b.weights < 2 ^ 63)

/-- Backend `b` at index `p` of `l` is alive, no alive backend of `l` has a strictly
smaller ratio, and every alive backend before it has a strictly greater one. -/
def IsBest (l : List Backend) (p : Nat) (b : Backend) : Prop :=
  l[p]? = some b ∧ b.Alive = true ∧
    (∀ (j : Nat) (c : Backend), l[j]? = some c → c.Alive = true →
      F64.gt (ratioOf b) (ratioOf c) = false) ∧
    (∀ (j : Nat) (c : Backend), j < p → l[j]? = some c → c.Alive = true →
      F64.gt (ratioOf c) (ratioOf b) = true)

/-- Calls still to be made by `ReverseProxy.ServeHTTP` in the worst case, as a function of
the request context. -/
def serveDepth (r : Request) : Nat :=
  3 * (4 - GetAttemptsFromContext r) + 2 * (3 - GetRetryFromContext r)

/-- Calls still to be made by a handler in the worst case. -/
def handlerDepth (r : Request) : Nat :=
  1 + if GetAttemptsFromContext r > 3 then 0 else serveDepth r

/-- A list of events made of at most `k` proxy invocations, each with an attempt count of
at most 3, followed by one 503 response. -/
def Budget (k : Nat) (evs : List Event) : Prop :=
  ∃ ps : List Event, evs = ps ++ [Event.unavailable] ∧ ps.length ≤ k ∧
    ∀ e ∈ ps, ∃ i a t, e = Event.proxy i a t ∧ a ≤ 3

/-- Proxy invocations still possible from `ReverseProxy.ServeHTTP` on. -/
def serveBudget (r : Request) : Nat :=
  1 + (3 - GetRetryFromContext r) + (3 - GetAttemptsFromContext r)

/-- Proxy invocations still possible from a handler on. -/
def handlerBudget (r : Request) : Nat :=
  if GetAttemptsFromContext r > 3 then 0 else serveBudget r

/-- The connections counter of the backend at an index (`0` past the end). -/
def connAt (bs : List Backend) (i : Nat) : Int :=
  match bs[i]? with
  | some b => b.connections
  | none => 0

/-- Every counter of the pool is an `int64` value. -/
def InRange (st : St) : Prop :=
  ∀ i, -(2 ^ 63) ≤ connAt st.pool.Backends i ∧ connAt st.pool.Backends i < 2 ^ 63

/-- Between the states `st` and `x` the pool kept its size and every counter its value,
and a counter that could still be incremented `k` times without wrapping was never below
its value in `st`. -/
def CountersKept (k : Nat) (st x : St) : Prop :=
  x.pool.Backends.length = st.pool.Backends.length ∧
  (∀ i, connAt x.pool.Backends i = connAt st.pool.Backends i) ∧
  ∃ hs, x.history = st.history ++ hs ∧
    ∀ i, connAt st.pool.Backends i + (k : Int) < 2 ^ 63 →
      ∀ p ∈ hs, connAt st.pool.Backends i ≤ connAt p.Backends i

/-! # Lemmas -/

/-! ### Rounding to binary64 -/

theorem roundHalfEven_intCast (k : ℤ) : roundHalfEven (k : ℚ) = k := by
  simp [roundHalfEven]

theorem roundHalfEven_le (q : ℚ) : (roundHalfEven q : ℚ) ≤ q + 1 := by
  have h1 : ((⌊q⌋ : ℤ) : ℚ) ≤ q := Int.floor_le q
  unfold roundHalfEven
  simp only
  split_ifs <;> push_cast <;> linarith

theorem lt_roundHalfEven (q : ℚ) : q - 1 < (roundHalfEven q : ℚ) := by
  have h1 : q < ((⌊q⌋ : ℤ) : ℚ) + 1 := Int.lt_floor_add_one q
  unfold roundHalfEven
  simp only
  split_ifs <;> push_cast <;> linarith

theorem roundHalfEven_nonneg {q : ℚ} (hq : 0 ≤ q) : 0 ≤ roundHalfEven q := by
  have h0 : 0 ≤ ⌊q⌋ := Int.floor_nonneg.mpr hq
  unfold roundHalfEven
  simp only
  split_ifs <;> omega

/-- The spacing of the binary64 grid around a non-zero rational. -/
theorem ulp_pos (e : ℤ) : (0 : ℚ) < 2 ^ e := by positivity

theorem ulp_le (x : ℚ) (hx : x ≠ 0) :
    (2 : ℚ) ^ (max (Int.log 2 |x|) (-1022) - 52) ≤ |x| + 1 := by
  have hpos : 0 < |x| := abs_pos.mpr hx
  rcases le_total (Int.log 2 |x|) (-1022) with h | h
  · rw [max_eq_right h]
    have : (2 : ℚ) ^ ((-1022 : ℤ) - 52) ≤ 1 := by
      apply zpow_le_one_of_nonpos₀ <;> norm_num
    linarith
  · rw [max_eq_left h]
    have h1 : (2 : ℚ) ^ (Int.log 2 |x| - 52) ≤ (2 : ℚ) ^ (Int.log 2 |x|) := by
      apply zpow_le_zpow_right₀ <;> norm_num
    have h2 : ((2 : ℕ) : ℚ) ^ (Int.log 2 |x|) ≤ |x| := Int.zpow_log_le_self (by norm_num) hpos
    norm_num at h2
    linarith

theorem abs_roundQ_le (x : ℚ) : |roundQ x| ≤ 2 * |x| + 1 := by
  unfold roundQ
  split_ifs with h0 hx
  · simp only [abs_zero]; positivity
  · simp only
    have hu := ulp_le x h0
    have hup := ulp_pos (max (Int.log 2 |x|) (-1022) - 52)
    set u : ℚ := 2 ^ (max (Int.log 2 |x|) (-1022) - 52) with hu_def
    have hq : 0 ≤ |x| / u := by positivity
    have hr := roundHalfEven_le (|x| / u)
    have hn : (0 : ℚ) ≤ roundHalfEven (|x| / u) := by exact_mod_cast roundHalfEven_nonneg hq
    rw [abs_of_nonneg (by positivity)]
    calc (roundHalfEven (|x| / u) : ℚ) * u ≤ (|x| / u + 1) * u := by
          apply mul_le_mul_of_nonneg_right hr hup.le
      _ = |x| + u := by field_simp
      _ ≤ 2 * |x| + 1 := by linarith
  · simp only
    have hu := ulp_le x h0
    have hup := ulp_pos (max (Int.log 2 |x|) (-1022) - 52)
    set u : ℚ := 2 ^ (max (Int.log 2 |x|) (-1022) - 52) with hu_def
    have hq : 0 ≤ |x| / u := by positivity
    have hr := roundHalfEven_le (|x| / u)
    have hn : (0 : ℚ) ≤ roundHalfEven (|x| / u) := by exact_mod_cast roundHalfEven_nonneg hq
    rw [abs_neg, abs_of_nonneg (by positivity)]
    calc (roundHalfEven (|x| / u) : ℚ) * u ≤ (|x| / u + 1) * u := by
          apply mul_le_mul_of_nonneg_right hr hup.le
      _ = |x| + u := by field_simp
      _ ≤ 2 * |x| + 1 := by linarith

theorem half_le_roundQ {x : ℚ} (hx : 1 ≤ x) : x / 2 ≤ roundQ x := by
  have hpos : 0 < x := by linarith
  have habs : |x| = x := abs_of_pos hpos
  have hlog : 0 ≤ Int.log 2 x := by
    have := Int.zpow_le_iff_le_log (b := 2) (x := 0) (r := x) (by norm_num) hpos
    exact this.mp (by simpa using hx)
  unfold roundQ
  rw [if_neg (ne_of_gt hpos), if_pos hpos, habs, max_eq_left (by omega)]
  have h2 : ((2 : ℕ) : ℚ) ^ (Int.log 2 x) ≤ x := Int.zpow_log_le_self (by norm_num) hpos
  norm_num at h2
  have h1 : (2 : ℚ) ^ (Int.log 2 x - 52) ≤ (2 : ℚ) ^ (Int.log 2 x - 1) := by
    apply zpow_le_zpow_right₀ <;> [norm_num; omega]
  have h3 : (2 : ℚ) ^ (Int.log 2 x - 1) = 2 ^ (Int.log 2 x) / 2 := by
    rw [zpow_sub₀ (by norm_num)]; simp
  have hup := ulp_pos (Int.log 2 x - 52)
  set u : ℚ := 2 ^ (Int.log 2 x - 52) with hu_def
  have hr := lt_roundHalfEven (x / u)
  calc x / 2 ≤ x - u := by linarith
    _ = (x / u - 1) * u := by field_simp
    _ ≤ (roundHalfEven (x / u) : ℚ) * u := by
        apply mul_le_mul_of_nonneg_right hr.le hup.le

/-- Integers of magnitude below `2 ^ 53` are on the binary64 grid. -/
theorem roundQ_intCast (n : ℤ) (hn : |n| < 2 ^ 53) : roundQ (n : ℚ) = n := by
  by_cases h0 : n = 0
  · subst h0; simp [roundQ]
  have hq0 : (n : ℚ) ≠ 0 := by exact_mod_cast h0
  have hpos : (0 : ℚ) < |(n : ℚ)| := abs_pos.mpr hq0
  have h1 : (1 : ℚ) ≤ |(n : ℚ)| := by
    have : 1 ≤ |n| := Int.one_le_abs h0
    exact_mod_cast this
  have hlog0 : 0 ≤ Int.log 2 |(n : ℚ)| := by
    have := Int.zpow_le_iff_le_log (b := 2) (x := 0) (r := |(n : ℚ)|) (by norm_num) hpos
    exact this.mp (by simpa using h1)
  have hlog1 : Int.log 2 |(n : ℚ)| < 53 := by
    have := Int.lt_zpow_iff_log_lt (b := 2) (x := 53) (r := |(n : ℚ)|) (by norm_num) hpos
    apply this.mp
    have h53 : ((|n| : ℤ) : ℚ) < 2 ^ 53 := by exact_mod_cast hn
    have hz : (((2 : ℕ) : ℚ)) ^ (53 : ℤ) = 2 ^ 53 := by norm_num
    rw [hz]
    simpa using h53
  obtain ⟨d, hd⟩ : ∃ d : ℕ, Int.log 2 |(n : ℚ)| - 52 = -(d : ℤ) :=
    ⟨(52 - Int.log 2 |(n : ℚ)|).toNat, by omega⟩
  have hgrid : |(n : ℚ)| / 2 ^ (Int.log 2 |(n : ℚ)| - 52) = ((|n| * 2 ^ d : ℤ) : ℚ) := by
    rw [hd, zpow_neg, zpow_natCast]; push_cast; field_simp
  have hback : ((|n| * 2 ^ d : ℤ) : ℚ) * 2 ^ (Int.log 2 |(n : ℚ)| - 52) = |(n : ℚ)| := by
    rw [hd, zpow_neg, zpow_natCast]; push_cast; field_simp
  unfold roundQ
  rw [if_neg hq0, max_eq_left (by omega)]
  simp only
  rw [hgrid, roundHalfEven_intCast, hback]
  split_ifs with hs
  · exact abs_of_pos hs
  · rw [abs_of_neg (lt_of_le_of_ne (not_lt.mp hs) hq0)]; ring

theorem F64.ofRat_intCast (n : ℤ) (hn : |n| < 2 ^ 53) : F64.ofRat (n : ℚ) = F64.fin n := by
  have hb : |(n : ℚ)| < 2 ^ 53 := by
    have : ((|n| : ℤ) : ℚ) < 2 ^ 53 := by exact_mod_cast hn
    simpa using this
  have h := abs_lt.mp hb
  unfold F64.ofRat
  rw [roundQ_intCast n hn]
  simp only
  rw [if_neg (by linarith), if_neg (by linarith)]

theorem F64.ofRat_fin {x : ℚ} (hx : |roundQ x| < 2 ^ 1024) : F64.ofRat x = F64.fin (roundQ x) := by
  have h := abs_lt.mp hx
  unfold F64.ofRat
  simp only
  rw [if_neg (by linarith), if_neg (by linarith)]

/-- The ratio of a backend whose load is an exact multiple of its weight. -/
theorem ratioOf_exact (b : Backend) (k : ℤ) (hk : |k| < 2 ^ 53) (hc : |b.connections| < 2 ^ 53)
    (hw0 : 0 < b.weights) (hw : b.weights < 2 ^ 53) (hmul : b.connections = k * b.weights) :
    ratioOf b = F64.fin k := by
  have hwabs : |b.weights| < 2 ^ 53 := by rw [abs_of_pos hw0]; exact hw
  have hwq : (b.weights : ℚ) ≠ 0 := by exact_mod_cast (ne_of_gt hw0)
  unfold ratioOf F64.ofInt
  rw [F64.ofRat_intCast _ hc, F64.ofRat_intCast _ hwabs]
  simp only [F64.div]
  rw [if_neg hwq]
  have : (b.connections : ℚ) / b.weights = (k : ℚ) := by
    rw [hmul]; push_cast; field_simp
  rw [this, F64.ofRat_intCast k hk]

/-- With a positive weight the ratio is a finite value below `math.MaxFloat64`. -/
theorem ratioOf_finite (b : Backend) (hc : -(2 ^ 63) ≤ b.connections ∧ b.connections < 2 ^ 63)
    (hw : 0 < b.weights ∧ b.weights < 2 ^ 63) :
    ∃ q : ℚ, ratioOf b = F64.fin q ∧ q < (2 ^ 53 - 1) * 2 ^ 971 := by
  have hcq : |(b.connections : ℚ)| ≤ 2 ^ 63 := by
    have : |b.connections| ≤ 2 ^ 63 := abs_le.mpr ⟨hc.1, hc.2.le⟩
    have : ((|b.connections| : ℤ) : ℚ) ≤ 2 ^ 63 := by exact_mod_cast this
    simpa using this
  have hwq : (1 : ℚ) ≤ (b.weights : ℚ) := by
    have : (1 : ℤ) ≤ b.weights := hw.1
    exact_mod_cast this
  have hwq2 : (b.weights : ℚ) ≤ 2 ^ 63 := by
    have : b.weights ≤ 2 ^ 63 := hw.2.le
    exact_mod_cast this
  have ha := abs_roundQ_le (b.connections : ℚ)
  have hb1 := half_le_roundQ hwq
  have hb2 := abs_roundQ_le (b.weights : ℚ)
  have hbpos : (0 : ℚ) < roundQ (b.weights : ℚ) := by linarith
  rw [abs_of_pos (by linarith : (0 : ℚ) < b.weights), abs_of_pos hbpos] at hb2
  have hquot : |roundQ (b.connections : ℚ) / roundQ (b.weights : ℚ)| ≤ 2 ^ 66 := by
    rw [abs_div, abs_of_pos hbpos, div_le_iff₀ hbpos]
    nlinarith
  have hr := abs_roundQ_le (roundQ (b.connections : ℚ) / roundQ (b.weights : ℚ))
  have hfin : |roundQ (roundQ (b.connections : ℚ) / roundQ (b.weights : ℚ))| ≤ 2 ^ 68 := by
    linarith
  refine ⟨roundQ (roundQ (b.connections : ℚ) / roundQ (b.weights : ℚ)), ?_, ?_⟩
  · unfold ratioOf F64.ofInt
    rw [F64.ofRat_fin (x := (b.connections : ℚ)) (by
        have : (2 : ℚ) ^ 65 < 2 ^ 1024 := by norm_num
        linarith),
      F64.ofRat_fin (x := (b.weights : ℚ)) (by
        rw [abs_of_pos hbpos]
        have : (2 : ℚ) ^ 65 < 2 ^ 1024 := by norm_num
        linarith)]
    simp only [F64.div]
    rw [if_neg (ne_of_gt hbpos)]
    exact F64.ofRat_fin (by
      have : (2 : ℚ) ^ 68 < 2 ^ 1024 := by norm_num
      linarith)
  · have h1 := (abs_le.mp hfin).2
    have : (2 : ℚ) ^ 68 < (2 ^ 53 - 1) * 2 ^ 971 := by norm_num
    linarith

theorem getElem_snoc_cases {α : Type} (pre : List α) (b c : α) (j : Nat)
    (h : (pre ++ [b])[j]? = some c) : pre[j]? = some c ∨ (j = pre.length ∧ c = b) := by
  rcases Nat.lt_trichotomy j pre.length with hlt | heq | hgt
  · left; rwa [List.getElem?_append_left hlt] at h
  · right; subst heq; simp at h; exact ⟨rfl, h.symm⟩
  · rw [List.getElem?_eq_none (by simp; omega)] at h; cases h

theorem leastLoop_spec (bs : List Backend) : ∀ (pre : List Backend) (m : F64) (peer : Option Nat),
    (∀ b ∈ pre ++ bs, b.PositiveWeight) →
    (peer = none → m = MaxFloat64 ∧ ∀ b ∈ pre, b.Alive = false) →
    (∀ p, peer = some p → ∃ b, IsBest pre p b ∧ m = ratioOf b) →
    (leastLoop bs pre.length m peer = none → ∀ b ∈ pre ++ bs, b.Alive = false) ∧
    (∀ p, leastLoop bs pre.length m peer = some p → ∃ b, IsBest (pre ++ bs) p b) := by
  induction bs with
  | nil =>
    intro pre m peer _ hnone hsome
    simp only [leastLoop, List.append_nil]
    exact ⟨fun h => (hnone h).2, fun p h => (hsome p h).imp fun b hb => hb.1⟩
  | cons b bs ih =>
    intro pre m peer hpw hnone hsome
    have hlen : (pre ++ [b]).length = pre.length + 1 := by simp
    have happ : pre ++ b :: bs = (pre ++ [b]) ++ bs := by simp
    obtain ⟨qb, hqb, hqbmax⟩ := ratioOf_finite b (hpw b (by simp)).1 (hpw b (by simp)).2
    have hpw2 : ∀ c ∈ (pre ++ [b]) ++ bs, c.PositiveWeight := by rw [← happ]; exact hpw
    rw [happ]
    unfold leastLoop
    rw [← hlen]
    by_cases hal : b.Alive = true
    · rw [if_pos hal]
      by_cases hgt : F64.gt m (ratioOf b) = true
      · rw [if_pos hgt]
        apply ih (pre ++ [b]) (ratioOf b) (some pre.length) hpw2
        · intro h; cases h
        · intro p hp
          cases hp
          refine ⟨b, ⟨by simp, hal, ?_, ?_⟩, rfl⟩
          · intro j c hj hc
            rcases getElem_snoc_cases pre b c j hj with h | ⟨_, rfl⟩
            · cases peer with
              | none =>
                have := (hnone rfl).2 c (List.getElem?_mem h)
                rw [this] at hc; cases hc
              | some p0 =>
                obtain ⟨b0, hb0, hm⟩ := hsome p0 rfl
                have h1 := hb0.2.2.1 j c h hc
                obtain ⟨qc, hqc, _⟩ := ratioOf_finite c
                  (hpw c (by simp [List.getElem?_mem h])).1
                  (hpw c (by simp [List.getElem?_mem h])).2
                rw [hm] at hgt
                cases hr0 : ratioOf b0 <;> rw [hr0] at hgt h1 <;>
                  simp [hqb, hqc, F64.gt] at hgt h1 ⊢
                all_goals linarith
            · simp [hqb, F64.gt]
          · intro j c hjl hj hc
            rcases getElem_snoc_cases pre b c j hj with h | ⟨hje, _⟩
            · cases peer with
              | none =>
                have := (hnone rfl).2 c (List.getElem?_mem h)
                rw [this] at hc; cases hc
              | some p0 =>
                obtain ⟨b0, hb0, hm⟩ := hsome p0 rfl
                have h1 := hb0.2.2.1 j c h hc
                obtain ⟨qc, hqc, _⟩ := ratioOf_finite c
                  (hpw c (by simp [List.getElem?_mem h])).1
                  (hpw c (by simp [List.getElem?_mem h])).2
                rw [hm] at hgt
                cases hr0 : ratioOf b0 <;> rw [hr0] at hgt h1 <;>
                  simp [hqb, hqc, F64.gt] at hgt h1 ⊢
                all_goals linarith
            · omega
      · rw [if_neg hgt]
        apply ih (pre ++ [b]) m peer hpw2
        · intro hp
          exfalso
          apply hgt
          rw [(hnone hp).1, hqb]
          simp only [MaxFloat64, F64.gt, decide_eq_true_eq]
          exact hqbmax
        · intro p hp
          obtain ⟨b0, hb0, hm⟩ := hsome p hp
          have hp_lt : p < pre.length := by
            by_contra hcon
            have h1 := hb0.1
            rw [List.getElem?_eq_none (by omega)] at h1
            cases h1
          refine ⟨b0, ⟨?_, hb0.2.1, ?_, ?_⟩, hm⟩
          · rw [List.getElem?_append_left hp_lt]; exact hb0.1
          · intro j c hj hc
            rcases getElem_snoc_cases pre b c j hj with h | ⟨_, rfl⟩
            · exact hb0.2.2.1 j c h hc
            · rw [← hm]; simpa using hgt
          · intro j c hjl hj hc
            rcases getElem_snoc_cases pre b c j hj with h | ⟨hje, _⟩
            · exact hb0.2.2.2 j c hjl h hc
            · omega
    · rw [if_neg hal]
      have hdead : b.Alive = false := by simpa using hal
      apply ih (pre ++ [b]) m peer hpw2
      · intro hp
        refine ⟨(hnone hp).1, ?_⟩
        intro c hc
        rcases List.mem_append.mp hc with h | h
        · exact (hnone hp).2 c h
        · simp at h; rw [h]; exact hdead
      · intro p hp
        obtain ⟨b0, hb0, hm⟩ := hsome p hp
        have hp_lt : p < pre.length := by
          by_contra hcon
          have h1 := hb0.1
          rw [List.getElem?_eq_none (by omega)] at h1
          cases h1
        refine ⟨b0, ⟨?_, hb0.2.1, ?_, ?_⟩, hm⟩
        · rw [List.getElem?_append_left hp_lt]; exact hb0.1
        · intro j c hj hc
          rcases getElem_snoc_cases pre b c j hj with h | ⟨_, rfl⟩
          · exact hb0.2.2.1 j c h hc
          · rw [hdead] at hc; cases hc
        · intro j c hjl hj hc
          rcases getElem_snoc_cases pre b c j hj with h | ⟨hje, _⟩
          · exact hb0.2.2.2 j c hjl h hc
          · omega

/-! ### The round-robin scan -/

theorem scanFrom_none (bs : List Backend) : ∀ (k i : Nat),
    (∀ j, j < k → aliveAt bs ((i + j) % bs.length) = false) → scanFrom bs i k = none := by
  intro k
  induction k with
  | zero => intro i _; rfl
  | succ k ih =>
    intro i h
    have h0 := h 0 (by omega)
    simp only [Nat.add_zero] at h0
    simp only [scanFrom, h0, Bool.false_eq_true, if_false]
    apply ih
    intro j hj
    have := h (j + 1) (by omega)
    rwa [show i + (j + 1) = i + 1 + j by omega] at this

theorem scanFrom_first (bs : List Backend) : ∀ (k i j : Nat), j < k →
    aliveAt bs ((i + j) % bs.length) = true →
    (∀ t, t < j → aliveAt bs ((i + t) % bs.length) = false) →
    scanFrom bs i k = some ((i + j) % bs.length) := by
  intro k
  induction k with
  | zero => intro i j hj; omega
  | succ k ih =>
    intro i j hj hal hdead
    cases j with
    | zero =>
      simp only [Nat.add_zero] at hal ⊢
      simp only [scanFrom, hal, if_true]
    | succ j =>
      have h0 := hdead 0 (by omega)
      simp only [Nat.add_zero] at h0
      simp only [scanFrom, h0, Bool.false_eq_true, if_false]
      rw [show i + (j + 1) = i + 1 + j by omega] at hal ⊢
      apply ih (i + 1) j (by omega) hal
      intro t ht
      have := hdead (t + 1) (by omega)
      rwa [show i + (t + 1) = i + 1 + t by omega] at this

/-- Whatever the scan returns is the index of an alive backend. -/
theorem scanFrom_alive (bs : List Backend) : ∀ (k i ind : Nat),
    scanFrom bs i k = some ind → aliveAt bs ind = true := by
  intro k
  induction k with
  | zero => intro i ind h; cases h
  | succ k ih =>
    intro i ind h
    simp only [scanFrom] at h
    split_ifs at h with hal
    · cases h; exact hal
    · exact ih (i + 1) ind h

/-- A full turn of the scan visits every index of the pool. -/
theorem exists_offset (n i t : Nat) (ht : t < n) : ∃ j, j < n ∧ (i + j) % n = t := by
  refine ⟨(t + (n - i % n)) % n, Nat.mod_lt _ (by omega), ?_⟩
  have hi : i % n < n := Nat.mod_lt _ (by omega)
  rw [Nat.add_mod, Nat.mod_mod, ← Nat.add_mod]
  have hdm := Nat.div_add_mod i n
  have hrw : i + (t + (n - i % n)) = t + n * (i / n + 1) := by
    rw [Nat.mul_add]; omega
  rw [hrw, Nat.add_mul_mod_self_left, Nat.mod_eq_of_lt ht]

theorem aliveAt_eq_false_of_all_dead (bs : List Backend) (h : ∀ b ∈ bs, b.Alive = false)
    (ind : Nat) : aliveAt bs ind = false := by
  unfold aliveAt
  cases hb : bs[ind]? with
  | none => rfl
  | some b => exact h b (List.getElem?_mem hb)

theorem all_dead_of_aliveAt (bs : List Backend) (h : ∀ ind, ind < bs.length → aliveAt bs ind = false) :
    ∀ b ∈ bs, b.Alive = false := by
  intro b hb
  obtain ⟨ind, hlt, hget⟩ := List.getElem_of_mem hb
  have := h ind hlt
  unfold aliveAt at this
  rw [List.getElem?_eq_getElem hlt, hget] at this
  exact this

/-- The decomposition of `GetNextPeer` on a non-empty pool. -/
theorem GetNextPeer_eq (s : ServerPool) (hn : 0 < s.Backends.length) :
    GetNextPeer s =
      match scanFrom s.Backends (wrapU64 (s.current + 1) % s.Backends.length)
          s.Backends.length with
      | some ind => (some (some ind), { s with current := ind })
      | none => (some none, { s with current := wrapU64 (s.current + 1) }) := by
  unfold GetNextPeer NextIndex
  simp only [Nat.ne_of_gt hn, if_false]

theorem GetNextPeer_Backends (s : ServerPool) : (GetNextPeer s).2.Backends = s.Backends := by
  unfold GetNextPeer NextIndex
  by_cases hn : s.Backends.length = 0
  · simp [hn]
  · simp only [hn, if_false]
    cases scanFrom s.Backends (wrapU64 (s.current + 1) % s.Backends.length) s.Backends.length <;> rfl

/-- `GetNextPeer` never returns a dead backend. -/
theorem GetNextPeer_alive (s : ServerPool) (ind : Nat) (h : (GetNextPeer s).1 = some (some ind)) :
    aliveAt s.Backends ind = true := by
  unfold GetNextPeer NextIndex at h
  by_cases hn : s.Backends.length = 0
  · simp [hn] at h
  · simp only [hn, if_false] at h
    cases hs : scanFrom s.Backends (wrapU64 (s.current + 1) % s.Backends.length)
        s.Backends.length with
    | none => rw [hs] at h; simp at h
    | some i =>
      rw [hs] at h
      simp at h
      subst h
      exact scanFrom_alive _ _ _ _ hs

theorem GetNextPeer_first (s : ServerPool) (hn : 0 < s.Backends.length) (k : Nat)
    (hk : k < s.Backends.length)
    (hal : aliveAt s.Backends
      ((wrapU64 (s.current + 1) % s.Backends.length + k) % s.Backends.length) = true)
    (hdead : ∀ j, j < k → aliveAt s.Backends
      ((wrapU64 (s.current + 1) % s.Backends.length + j) % s.Backends.length) = false) :
    GetNextPeer s =
      (some (some ((wrapU64 (s.current + 1) % s.Backends.length + k) % s.Backends.length)),
        { s with current :=
            (wrapU64 (s.current + 1) % s.Backends.length + k) % s.Backends.length }) := by
  rw [GetNextPeer_eq s hn, scanFrom_first s.Backends _ _ k hk hal hdead]

theorem GetNextPeer_all_dead (s : ServerPool) (hn : 0 < s.Backends.length)
    (h : ∀ b ∈ s.Backends, b.Alive = false) :
    GetNextPeer s = (some none, { s with current := wrapU64 (s.current + 1) }) := by
  rw [GetNextPeer_eq s hn, scanFrom_none s.Backends _ _
    (fun j _ => aliveAt_eq_false_of_all_dead _ h _)]

theorem GetNextPeer_nil_iff (s : ServerPool) (hn : 0 < s.Backends.length) :
    (GetNextPeer s).1 = some none ↔ ∀ b ∈ s.Backends, b.Alive = false := by
  constructor
  · intro h
    apply all_dead_of_aliveAt
    intro ind hind
    by_contra hal
    have hal2 : aliveAt s.Backends ind = true := by simpa using hal
    -- some offset of the scan reaches `ind`; take the least alive one
    obtain ⟨j, hj, hje⟩ := exists_offset s.Backends.length
      (wrapU64 (s.current + 1) % s.Backends.length) ind hind
    have hex : ∃ j, j < s.Backends.length ∧ aliveAt s.Backends
        ((wrapU64 (s.current + 1) % s.Backends.length + j) % s.Backends.length) = true :=
      ⟨j, hj, by rw [hje]; exact hal2⟩
    have hmin := @Nat.find_min _ _ hex
    obtain ⟨hk, hkal⟩ := Nat.find_spec hex
    have := GetNextPeer_first s hn (Nat.find hex) hk hkal (by
      intro t ht
      have := hmin ht
      simp only [not_and, Bool.not_eq_true] at this
      exact this (by omega))
    rw [this] at h
    simp at h
  · intro h
    rw [GetNextPeer_all_dead s hn h]

theorem calls_dead_alive_alive : ∀ (m t : Nat), t < m →
    (callsGetNextPeer m (poolDeadAliveAlive 1))[t]? =
        some (some (some (if t % 2 = 0 then 2 else 1))) ∧
    (callsGetNextPeer m (poolDeadAliveAlive 2))[t]? =
        some (some (some (if t % 2 = 0 then 1 else 2))) := by
  intro m
  induction m with
  | zero => intro t ht; omega
  | succ m ih =>
    intro t ht
    have h1 : GetNextPeer (poolDeadAliveAlive 1) = (some (some 2), poolDeadAliveAlive 2) := by
      decide
    have h2 : GetNextPeer (poolDeadAliveAlive 2) = (some (some 1), poolDeadAliveAlive 1) := by
      decide
    cases t with
    | zero => simp [callsGetNextPeer, h1, h2]
    | succ t =>
      have := ih t (by omega)
      simp only [callsGetNextPeer, h1, h2, List.getElem?_cons_succ, this]
      have e : (t + 1) % 2 = 0 ↔ ¬ (t % 2 = 0) := by omega
      by_cases ht2 : t % 2 = 0
      · simp [ht2, e]
      · simp [ht2, e]

/-! ### Fairness with every backend alive -/

theorem calls_all_alive : ∀ (m : Nat) (s : ServerPool), 0 < s.Backends.length →
    s.Backends.length < 2 ^ 63 → (∀ b ∈ s.Backends, b.Alive = true) → ∀ t, t < m →
    (callsGetNextPeer m s)[t]? =
      some (some (some (((s.current + 1) % 2 ^ 64 % s.Backends.length + t) % s.Backends.length))) := by
  intro m
  induction m with
  | zero => intro s _ _ _ t ht; omega
  | succ m ih =>
    intro s hn hlen hal t ht
    have halive : ∀ ind, ind < s.Backends.length → aliveAt s.Backends ind = true := by
      intro ind hind
      unfold aliveAt
      rw [List.getElem?_eq_getElem hind]
      exact hal _ (List.getElem_mem _)
    have hstart : (s.current + 1) % 2 ^ 64 % s.Backends.length < s.Backends.length :=
      Nat.mod_lt _ hn
    have hg := GetNextPeer_first s hn 0 hn (halive _ (Nat.mod_lt _ hn)) (by intro j hj; omega)
    simp only [wrapU64, Nat.add_zero, Nat.mod_mod] at hg
    cases t with
    | zero =>
      simp only [callsGetNextPeer, hg, List.getElem?_cons_zero, Nat.add_zero, Nat.mod_mod]
    | succ t =>
      simp only [callsGetNextPeer, hg, List.getElem?_cons_succ]
      rw [ih ⟨s.Backends, (s.current + 1) % 2 ^ 64 % s.Backends.length⟩ hn hlen hal t (by omega)]
      simp only
      have h64 : ((s.current + 1) % 2 ^ 64 % s.Backends.length + 1) % 2 ^ 64 =
          (s.current + 1) % 2 ^ 64 % s.Backends.length + 1 := by
        apply Nat.mod_eq_of_lt; omega
      rw [h64, Nat.add_mod, Nat.mod_mod, ← Nat.add_mod]
      congr 4
      omega

theorem callsGetNextPeer_length : ∀ (m : Nat) (s : ServerPool), (callsGetNextPeer m s).length = m := by
  intro m
  induction m with
  | zero => intro s; rfl
  | succ m ih => intro s; simp [callsGetNextPeer, ih]

theorem calls_all_alive_eq_map (m : Nat) (s : ServerPool) (hn : 0 < s.Backends.length)
    (hlen : s.Backends.length < 2 ^ 63) (hal : ∀ b ∈ s.Backends, b.Alive = true) :
    callsGetNextPeer m s = (List.range m).map (fun t =>
      some (some (((s.current + 1) % 2 ^ 64 % s.Backends.length + t) % s.Backends.length))) := by
  apply List.ext_getElem?
  intro t
  by_cases ht : t < m
  · rw [calls_all_alive m s hn hlen hal t ht]
    simp [List.getElem?_range ht, ht]
  · rw [List.getElem?_eq_none (by rw [callsGetNextPeer_length]; omega),
      List.getElem?_eq_none (by simp; omega)]

theorem count_shifted (n start j m : Nat) (hn : 0 < n) (hj : j < n) :
    Nat.count (fun t => (start + t) % n = j) m =
      m / n + if (j + (n - start % n)) % n < m % n then 1 else 0 := by
  refine Eq.trans ?_ (Nat.count_modEq_card m hn (j + (n - start % n)))
  unfold Nat.count
  apply List.countP_congr
  intro t _
  simp only [decide_eq_true_eq]
  have hs : start % n < n := Nat.mod_lt _ hn
  have key : start + (j + (n - start % n)) ≡ j [MOD n] := by
    have hdm := Nat.div_add_mod start n
    have : start + (j + (n - start % n)) = j + n * (start / n + 1) := by
      rw [Nat.mul_add]; omega
    rw [this]
    unfold Nat.ModEq
    rw [Nat.add_mul_mod_self_left]
  constructor
  · intro h
    have h1 : start + t ≡ j [MOD n] := by
      unfold Nat.ModEq; rw [h, Nat.mod_eq_of_lt hj]
    exact Nat.ModEq.add_left_cancel (Nat.ModEq.refl start) (h1.trans key.symm)
  · intro h
    have h1 : start + t ≡ j [MOD n] := (Nat.ModEq.add_left start h).trans key
    unfold Nat.ModEq at h1
    rw [h1, Nat.mod_eq_of_lt hj]

theorem ceil_div_cases (m n : Nat) (hn : 0 < n) :
    (m % n = 0 → (m + n - 1) / n = m / n) ∧ (m % n ≠ 0 → (m + n - 1) / n = m / n + 1) := by
  have hdm := Nat.div_add_mod m n
  have hlt := Nat.mod_lt m hn
  constructor
  · intro h0
    have : m + n - 1 = (n - 1) + n * (m / n) := by omega
    rw [this, Nat.add_mul_div_left _ _ hn, Nat.div_eq_of_lt (by omega)]
    omega
  · intro h0
    have : m + n - 1 = (m % n - 1) + n * (m / n + 1) := by
      rw [Nat.mul_add]; omega
    rw [this, Nat.add_mul_div_left _ _ hn, Nat.div_eq_of_lt (by omega)]
    omega

theorem count_calls_all_alive (m : Nat) (s : ServerPool) (hn : 0 < s.Backends.length)
    (hlen : s.Backends.length < 2 ^ 63) (hal : ∀ b ∈ s.Backends, b.Alive = true) (j : Nat) :
    (callsGetNextPeer m s).count (some (some j)) =
      Nat.count (fun t => ((s.current + 1) % 2 ^ 64 % s.Backends.length + t) % s.Backends.length = j)
        m := by
  rw [calls_all_alive_eq_map m s hn hlen hal, List.count_eq_countP, List.countP_map]
  unfold Nat.count
  apply List.countP_congr
  intro t _
  simp

theorem gt_max_fin (q : ℚ) (h : q < (2 ^ 53 - 1) * 2 ^ 971) :
    F64.gt MaxFloat64 (F64.fin q) = true := by
  simp only [MaxFloat64, F64.gt, decide_eq_true_eq]; exact h

/-! ### Selection on dead backends -/

theorem leastLoop_all_dead (bs : List Backend) (h : ∀ b ∈ bs, b.Alive = false) :
    ∀ (i : Nat) (m : F64) (peer : Option Nat), leastLoop bs i m peer = peer := by
  induction bs with
  | nil => intro i m peer; rfl
  | cons b bs ih =>
    intro i m peer
    have hb : b.Alive = false := h b (by simp)
    simp only [leastLoop, hb, Bool.false_eq_true, if_false]
    exact ih (fun c hc => h c (by simp [hc])) _ _ _

/-- The least-connections loop returns the peer it starts with or an alive backend. -/
theorem leastLoop_alive (bs : List Backend) : ∀ (i : Nat) (m : F64) (peer : Option Nat) (p : Nat),
    leastLoop bs i m peer = some p →
    peer = some p ∨ (i ≤ p ∧ aliveAt bs (p - i) = true) := by
  induction bs with
  | nil => intro i m peer p h; left; exact h
  | cons b bs ih =>
    intro i m peer p h
    simp only [leastLoop] at h
    have step : ∀ (m2 : F64) (peer2 : Option Nat), leastLoop bs (i + 1) m2 peer2 = some p →
        (peer2 = some p ∨ (i ≤ p ∧ aliveAt (b :: bs) (p - i) = true)) := by
      intro m2 peer2 h2
      rcases ih (i + 1) m2 peer2 p h2 with h3 | ⟨h3, h4⟩
      · left; exact h3
      · right
        refine ⟨by omega, ?_⟩
        have : p - i = (p - (i + 1)) + 1 := by omega
        rw [this]
        simpa [aliveAt] using h4
    split_ifs at h with hal hgt
    · rcases step _ _ h with h3 | h3
      · right
        cases h3
        refine ⟨le_refl _, ?_⟩
        simp [aliveAt, hal]
      · right; exact h3
    · exact step _ _ h
    · exact step _ _ h

/-- `GetNextPeerForLeastConnections` never returns a dead backend. -/
theorem GetNextPeerForLeastConnections_alive (s : ServerPool) (p : Nat)
    (h : GetNextPeerForLeastConnections s = some p) : aliveAt s.Backends p = true := by
  rcases leastLoop_alive s.Backends 0 MaxFloat64 none p h with h1 | ⟨_, h2⟩
  · cases h1
  · simpa using h2

/-! ### Marking a backend -/

theorem markFirst_length (bs : List Backend) (u : String) (alive : Bool) :
    (markFirst bs u alive).length = bs.length := by
  induction bs with
  | nil => rfl
  | cons b bs ih =>
    simp only [markFirst]
    split_ifs <;> simp [ih]

theorem markFirst_first (bs : List Backend) (alive : Bool) : ∀ (i : Nat) (x : Backend),
    bs[i]? = some x →
    (∀ (j : Nat) (y : Backend), j < i → bs[j]? = some y → y.URL ≠ x.URL) →
    (markFirst bs x.URL alive)[i]? = some { x with Alive := alive } := by
  induction bs with
  | nil => intro i x h; simp at h
  | cons b bs ih =>
    intro i x hx hfirst
    cases i with
    | zero =>
      simp only [List.getElem?_cons_zero, Option.some.injEq] at hx
      subst hx
      simp [markFirst]
    | succ i =>
      have hb : b.URL ≠ x.URL := hfirst 0 b (by omega) (by simp)
      simp only [markFirst, hb, if_false, List.getElem?_cons_succ]
      simp only [List.getElem?_cons_succ] at hx
      apply ih i x hx
      intro j y hj hy
      exact hfirst (j + 1) y (by omega) (by simpa using hy)

/-! ### Configuration -/

theorem configLoop_spec (parse : String → Option String) : ∀ (toks : List BackendInfo)
    (pool : ServerPool),
    (configLoop parse toks pool ≠ none ↔ ∀ tok ∈ toks, parse tok.Url ≠ none) ∧
    (∀ p, configLoop parse toks pool = some p →
      p = { pool with Backends := pool.Backends ++ toks.map (fun tok =>
        { URL := (parse tok.Url).getD "", Alive := true, connections := 0,
          weights := tok.Weight }) }) := by
  intro toks
  induction toks with
  | nil => intro pool; simp [configLoop]
  | cons tok rest ih =>
    intro pool
    cases hp : parse tok.Url with
    | none => simp [configLoop, hp]
    | some u =>
      simp only [configLoop, hp]
      obtain ⟨ih1, ih2⟩ := ih (AddBackend pool ⟨u, true, 0, tok.Weight⟩)
      constructor
      · rw [ih1]; simp [hp]
      · intro p h
        rw [ih2 p h]
        simp [AddBackend, hp]

/-! ### The call chain is bounded -/

theorem serveDepth_retry (r : Request) (t : Nat) :
    serveDepth { r with retry := some t } =
      3 * (4 - GetAttemptsFromContext r) + 2 * (3 - t) := rfl

theorem handlerDepth_attempts (r : Request) (a : Nat) :
    handlerDepth { r with attempts := some a } =
      1 + if a > 3 then 0 else 3 * (4 - a) + 2 * (3 - GetRetryFromContext r) := rfl

theorem lb_fuel_mono : ∀ (fuel : Nat),
    (∀ tr r st x, lb fuel tr r st = some x → lb (fuel + 1) tr r st = some x) ∧
    (∀ tr peer r st x, serveHTTPRR fuel tr peer r st = some x →
      serveHTTPRR (fuel + 1) tr peer r st = some x) ∧
    (∀ tr peer r st x, errorHandlerRR fuel tr peer r st = some x →
      errorHandlerRR (fuel + 1) tr peer r st = some x) := by
  intro fuel
  induction fuel with
  | zero =>
    refine ⟨?_, ?_, ?_⟩ <;> intros <;> simp_all [lb, serveHTTPRR, errorHandlerRR]
  | succ fuel ih =>
    obtain ⟨ih1, ih2, ih3⟩ := ih
    refine ⟨?_, ?_, ?_⟩
    · intro tr r st x h
      rw [lb] at h ⊢
      try simp only at h ⊢
      split_ifs at h ⊢ with ha
      · exact h
      · split at h
        · exact h
        · exact ih2 _ _ _ _ _ h
        · exact h
    · intro tr peer r st x h
      rw [serveHTTPRR] at h ⊢
      try simp only at h ⊢
      split_ifs at h ⊢ with ht
      · exact h
      · exact ih3 _ _ _ _ _ h
    · intro tr peer r st x h
      rw [errorHandlerRR] at h ⊢
      try simp only at h ⊢
      split_ifs at h ⊢ with ht
      · exact ih2 _ _ _ _ _ h
      · exact ih1 _ _ _ _ h

theorem lb_fuel_le (tr : Transport) (r : Request) (st x : St) (fuel : Nat)
    (h : lb fuel tr r st = some x) : ∀ k, lb (fuel + k) tr r st = some x := by
  intro k
  induction k with
  | zero => exact h
  | succ k ih => exact (lb_fuel_mono (fuel + k)).1 _ _ _ _ ih

theorem lb_terminates : ∀ (fuel : Nat),
    (∀ tr r st, handlerDepth r ≤ fuel → ∃ x, lb fuel tr r st = some x) ∧
    (∀ tr peer r st, GetAttemptsFromContext r ≤ 3 → serveDepth r ≤ fuel →
      ∃ x, serveHTTPRR fuel tr peer r st = some x) ∧
    (∀ tr peer r st, GetAttemptsFromContext r ≤ 3 → serveDepth r ≤ fuel + 1 →
      ∃ x, errorHandlerRR fuel tr peer r st = some x) := by
  intro fuel
  induction fuel with
  | zero =>
    refine ⟨?_, ?_, ?_⟩
    · intro tr r st h; simp [handlerDepth] at h
    · intro tr peer r st ha h; simp [serveDepth] at h; omega
    · intro tr peer r st ha h; simp [serveDepth] at h; omega
  | succ fuel ih =>
    obtain ⟨ih1, ih2, ih3⟩ := ih
    refine ⟨?_, ?_, ?_⟩
    · intro tr r st h
      rw [lb]
      split_ifs with ha
      · exact ⟨_, rfl⟩
      · split
        · exact ⟨_, rfl⟩
        · apply ih2 _ _ _ _ (by omega)
          simp only [handlerDepth, ha, if_false] at h
          omega
        · exact ⟨_, rfl⟩
    · intro tr peer r st ha h
      rw [serveHTTPRR]
      split_ifs with ht
      · exact ⟨_, rfl⟩
      · exact ih3 _ _ _ _ ha h
    · intro tr peer r st ha h
      rw [errorHandlerRR]
      split_ifs with ht
      · refine ih2 _ _ _ _ (by simpa [GetAttemptsFromContext] using ha) ?_
        rw [serveDepth_retry]
        unfold serveDepth at h
        omega
      · apply ih1
        rw [handlerDepth_attempts]
        unfold serveDepth at h
        split_ifs <;> omega

theorem lbLC_fuel_mono : ∀ (fuel : Nat),
    (∀ tr r st x, lbWithLeastConnections fuel tr r st = some x →
      lbWithLeastConnections (fuel + 1) tr r st = some x) ∧
    (∀ tr peer r st x, serveHTTPLC fuel tr peer r st = some x →
      serveHTTPLC (fuel + 1) tr peer r st = some x) ∧
    (∀ tr peer r st x, errorHandlerLC fuel tr peer r st = some x →
      errorHandlerLC (fuel + 1) tr peer r st = some x) := by
  intro fuel
  induction fuel with
  | zero =>
    refine ⟨?_, ?_, ?_⟩ <;> intros <;>
      simp_all [lbWithLeastConnections, serveHTTPLC, errorHandlerLC]
  | succ fuel ih =>
    obtain ⟨ih1, ih2, ih3⟩ := ih
    refine ⟨?_, ?_, ?_⟩
    · intro tr r st x h
      rw [lbWithLeastConnections] at h ⊢
      try simp only at h ⊢
      split_ifs at h ⊢ with ha
      · exact h
      · split at h
        · rename_i peer hsel
          split at h
          · rename_i st2 hsv
            rw [ih2 _ _ _ _ _ hsv]
            exact h
          · cases h
        · exact h
    · intro tr peer r st x h
      rw [serveHTTPLC] at h ⊢
      try simp only at h ⊢
      split_ifs at h ⊢ with ht
      · exact h
      · exact ih3 _ _ _ _ _ h
    · intro tr peer r st x h
      rw [errorHandlerLC] at h ⊢
      try simp only at h ⊢
      split_ifs at h ⊢ with ht
      · exact ih2 _ _ _ _ _ h
      · exact ih1 _ _ _ _ h

theorem lbLC_fuel_le (tr : Transport) (r : Request) (st x : St) (fuel : Nat)
    (h : lbWithLeastConnections fuel tr r st = some x) :
    ∀ k, lbWithLeastConnections (fuel + k) tr r st = some x := by
  intro k
  induction k with
  | zero => exact h
  | succ k ih => exact (lbLC_fuel_mono (fuel + k)).1 _ _ _ _ ih

theorem lbLC_terminates : ∀ (fuel : Nat),
    (∀ tr r st, handlerDepth r ≤ fuel → ∃ x, lbWithLeastConnections fuel tr r st = some x) ∧
    (∀ tr peer r st, GetAttemptsFromContext r ≤ 3 → serveDepth r ≤ fuel →
      ∃ x, serveHTTPLC fuel tr peer r st = some x) ∧
    (∀ tr peer r st, GetAttemptsFromContext r ≤ 3 → serveDepth r ≤ fuel + 1 →
      ∃ x, errorHandlerLC fuel tr peer r st = some x) := by
  intro fuel
  induction fuel with
  | zero =>
    refine ⟨?_, ?_, ?_⟩
    · intro tr r st h; simp [handlerDepth] at h
    · intro tr peer r st ha h; simp [serveDepth] at h; omega
    · intro tr peer r st ha h; simp [serveDepth] at h; omega
  | succ fuel ih =>
    obtain ⟨ih1, ih2, ih3⟩ := ih
    refine ⟨?_, ?_, ?_⟩
    · intro tr r st h
      rw [lbWithLeastConnections]
      split_ifs with ha
      · exact ⟨_, rfl⟩
      · cases hsel : GetNextPeerForLeastConnections st.pool with
        | none => exact ⟨_, rfl⟩
        | some peer =>
          simp only
          obtain ⟨st2, hst2⟩ := ih2 tr peer r
            (st.write { st.pool with Backends := addConnections st.pool.Backends peer 1 })
            (by omega) (by
              simp only [handlerDepth, ha, if_false] at h
              omega)
          rw [hst2]
          exact ⟨_, rfl⟩
    · intro tr peer r st ha h
      rw [serveHTTPLC]
      split_ifs with ht
      · exact ⟨_, rfl⟩
      · exact ih3 _ _ _ _ ha h
    · intro tr peer r st ha h
      rw [errorHandlerLC]
      split_ifs with ht
      · refine ih2 _ _ _ _ (by simpa [GetAttemptsFromContext] using ha) ?_
        rw [serveDepth_retry]
        unfold serveDepth at h
        omega
      · apply ih1
        rw [handlerDepth_attempts]
        unfold serveDepth at h
        split_ifs <;> omega

/-! ### The budget of a request whose round trips all fail -/

theorem Budget.mono {k k2 : Nat} {evs : List Event} (h : Budget k evs) (hk : k ≤ k2) :
    Budget k2 evs := by
  obtain ⟨ps, h1, h2, h3⟩ := h
  exact ⟨ps, h1, by omega, h3⟩

theorem Budget.unavailable (k : Nat) : Budget k [Event.unavailable] :=
  ⟨[], rfl, by simp, by simp⟩

theorem Budget.cons_proxy {k : Nat} {evs : List Event} (h : Budget k evs) (i a t : Nat)
    (ha : a ≤ 3) : Budget (k + 1) (Event.proxy i a t :: evs) := by
  obtain ⟨ps, h1, h2, h3⟩ := h
  refine ⟨Event.proxy i a t :: ps, by simp [h1], by simp; omega, ?_⟩
  intro e he
  rcases List.mem_cons.mp he with rfl | he
  · exact ⟨i, a, t, rfl, ha⟩
  · exact h3 e he

theorem serveBudget_retry (r : Request) (t : Nat) :
    serveBudget { r with retry := some t } = 1 + (3 - t) + (3 - GetAttemptsFromContext r) := rfl

theorem handlerBudget_attempts (r : Request) (a : Nat) :
    handlerBudget { r with attempts := some a } =
      if a > 3 then 0 else 1 + (3 - GetRetryFromContext r) + (3 - a) := rfl

theorem GetNextPeer_ne_panic (s : ServerPool) (hn : 0 < s.Backends.length) :
    (GetNextPeer s).1 ≠ none := by
  rw [GetNextPeer_eq s hn]
  split <;> simp

theorem MarkBackendStatus_length (s : ServerPool) (u : String) (alive : Bool) :
    (MarkBackendStatus s u alive).Backends.length = s.Backends.length :=
  markFirst_length _ _ _

theorem lb_budget : ∀ (fuel : Nat),
    (∀ r st x, 0 < st.pool.Backends.length → lb fuel alwaysFails r st = some x →
      ∃ evs, x.log = st.log ++ evs ∧ Budget (handlerBudget r) evs) ∧
    (∀ peer r st x, 0 < st.pool.Backends.length → GetAttemptsFromContext r ≤ 3 →
      serveHTTPRR fuel alwaysFails peer r st = some x →
      ∃ evs, x.log = st.log ++ evs ∧ Budget (serveBudget r) evs) ∧
    (∀ peer r st x, 0 < st.pool.Backends.length → GetAttemptsFromContext r ≤ 3 →
      errorHandlerRR fuel alwaysFails peer r st = some x →
      ∃ evs, x.log = st.log ++ evs ∧ Budget (serveBudget r - 1) evs) := by
  intro fuel
  induction fuel with
  | zero =>
    refine ⟨?_, ?_, ?_⟩ <;> intros <;> simp_all [lb, serveHTTPRR, errorHandlerRR]
  | succ fuel ih =>
    obtain ⟨ih1, ih2, ih3⟩ := ih
    refine ⟨?_, ?_, ?_⟩
    · intro r st x hn h
      rw [lb] at h
      try simp only at h
      split_ifs at h with ha
      · cases h
        exact ⟨[Event.unavailable], rfl, Budget.unavailable _⟩
      · split at h
        · rename_i heq
          exact absurd (congrArg Prod.fst heq) (GetNextPeer_ne_panic _ hn)
        · rename_i peer p heq
          have hp : p.Backends = st.pool.Backends := by
            have := GetNextPeer_Backends st.pool
            rw [heq] at this; exact this
          obtain ⟨evs, h1, h2⟩ := ih2 peer r (st.write p) x (by simpa [St.write, hp] using hn)
            (by omega) h
          refine ⟨evs, h1, ?_⟩
          simpa [handlerBudget, ha] using h2
        · cases h
          exact ⟨[Event.unavailable], rfl, Budget.unavailable _⟩
    · intro peer r st x hn ha h
      rw [serveHTTPRR] at h
      try simp only at h
      split_ifs at h with ht
      · simp [alwaysFails] at ht
      · obtain ⟨evs, h1, h2⟩ := ih3 peer r _ x (by simpa [St.emit] using hn) ha h
        refine ⟨Event.proxy peer (GetAttemptsFromContext r) (GetRetryFromContext r) :: evs,
          by simp [h1, St.emit], ?_⟩
        have := h2.cons_proxy peer (GetAttemptsFromContext r) (GetRetryFromContext r) ha
        exact this.mono (by unfold serveBudget; omega)
    · intro peer r st x hn ha h
      rw [errorHandlerRR] at h
      try simp only at h
      split_ifs at h with ht
      · obtain ⟨evs, h1, h2⟩ := ih2 peer _ st x hn (by simpa [GetAttemptsFromContext] using ha) h
        refine ⟨evs, h1, h2.mono ?_⟩
        rw [serveBudget_retry]
        unfold serveBudget
        omega
      · obtain ⟨evs, h1, h2⟩ := ih1 _ _ x (by
          simpa [St.write, MarkBackendStatus_length] using hn) h
        refine ⟨evs, by simpa [St.write] using h1, h2.mono ?_⟩
        rw [handlerBudget_attempts]
        unfold serveBudget
        split_ifs <;> omega

theorem lbLC_budget : ∀ (fuel : Nat),
    (∀ r st x, lbWithLeastConnections fuel alwaysFails r st = some x →
      ∃ evs, x.log = st.log ++ evs ∧ Budget (handlerBudget r) evs) ∧
    (∀ peer r st x, GetAttemptsFromContext r ≤ 3 →
      serveHTTPLC fuel alwaysFails peer r st = some x →
      ∃ evs, x.log = st.log ++ evs ∧ Budget (serveBudget r) evs) ∧
    (∀ peer r st x, GetAttemptsFromContext r ≤ 3 →
      errorHandlerLC fuel alwaysFails peer r st = some x →
      ∃ evs, x.log = st.log ++ evs ∧ Budget (serveBudget r - 1) evs) := by
  intro fuel
  induction fuel with
  | zero =>
    refine ⟨?_, ?_, ?_⟩ <;> intros <;>
      simp_all [lbWithLeastConnections, serveHTTPLC, errorHandlerLC]
  | succ fuel ih =>
    obtain ⟨ih1, ih2, ih3⟩ := ih
    refine ⟨?_, ?_, ?_⟩
    · intro r st x h
      rw [lbWithLeastConnections] at h
      try simp only at h
      split_ifs at h with ha
      · cases h
        exact ⟨[Event.unavailable], rfl, Budget.unavailable _⟩
      · split at h
        · rename_i peer hsel
          split at h
          · rename_i st2 hsv
            cases h
            obtain ⟨evs, h1, h2⟩ := ih2 peer r _ st2 (by omega) hsv
            refine ⟨evs, by simpa [St.write] using h1, ?_⟩
            simpa [handlerBudget, ha] using h2
          · cases h
        · cases h
          exact ⟨[Event.unavailable], rfl, Budget.unavailable _⟩
    · intro peer r st x ha h
      rw [serveHTTPLC] at h
      try simp only at h
      split_ifs at h with ht
      · simp [alwaysFails] at ht
      · obtain ⟨evs, h1, h2⟩ := ih3 peer r _ x ha h
        refine ⟨Event.proxy peer (GetAttemptsFromContext r) (GetRetryFromContext r) :: evs,
          by simp [h1, St.emit], ?_⟩
        have := h2.cons_proxy peer (GetAttemptsFromContext r) (GetRetryFromContext r) ha
        exact this.mono (by unfold serveBudget; omega)
    · intro peer r st x ha h
      rw [errorHandlerLC] at h
      try simp only at h
      split_ifs at h with ht
      · obtain ⟨evs, h1, h2⟩ := ih2 peer _ st x (by simpa [GetAttemptsFromContext] using ha) h
        refine ⟨evs, h1, h2.mono ?_⟩
        rw [serveBudget_retry]
        unfold serveBudget
        omega
      · obtain ⟨evs, h1, h2⟩ := ih1 _ _ x h
        refine ⟨evs, by simpa [St.write] using h1, h2.mono ?_⟩
        rw [handlerBudget_attempts]
        unfold serveBudget
        split_ifs <;> omega

theorem urlAt_eq (bs : List Backend) (i : Nat) (x : Backend) (hx : bs[i]? = some x) :
    urlAt bs i = x.URL := by
  simp [urlAt, hx]

theorem wrapI64_range (x : Int) : -(2 ^ 63) ≤ wrapI64 x ∧ wrapI64 x < 2 ^ 63 := by
  unfold wrapI64; omega

theorem wrapI64_id (x : Int) (h1 : -(2 ^ 63) ≤ x) (h2 : x < 2 ^ 63) : wrapI64 x = x := by
  unfold wrapI64; omega

theorem wrapI64_inc_dec (x : Int) (h1 : -(2 ^ 63) ≤ x) (h2 : x < 2 ^ 63) :
    wrapI64 (wrapI64 (x + 1) + -1) = x := by
  unfold wrapI64; omega

theorem addConnections_length (bs : List Backend) : ∀ (peer : Nat) (d : Int),
    (addConnections bs peer d).length = bs.length := by
  induction bs with
  | nil => intro peer d; rfl
  | cons b bs ih =>
    intro peer d
    cases peer with
    | zero => rfl
    | succ peer => simp [addConnections, ih]

theorem connAt_addConnections (bs : List Backend) : ∀ (peer : Nat) (d : Int) (i : Nat),
    connAt (addConnections bs peer d) i =
      if i = peer ∧ peer < bs.length then wrapI64 (connAt bs i + d) else connAt bs i := by
  induction bs with
  | nil => intro peer d i; simp [addConnections, connAt]
  | cons b bs ih =>
    intro peer d i
    cases peer with
    | zero =>
      cases i with
      | zero => simp [addConnections, connAt]
      | succ i => simp [addConnections, connAt]
    | succ peer =>
      cases i with
      | zero => simp [addConnections, connAt]
      | succ i =>
        have := ih peer d i
        simp only [connAt, addConnections, List.getElem?_cons_succ, List.length_cons] at this ⊢
        rw [this]
        simp

theorem connAt_markFirst (bs : List Backend) (u : String) (alive : Bool) : ∀ (i : Nat),
    connAt (markFirst bs u alive) i = connAt bs i := by
  induction bs with
  | nil => intro i; rfl
  | cons b bs ih =>
    intro i
    simp only [markFirst]
    split_ifs with hu
    · cases i <;> simp [connAt]
    · cases i with
      | zero => simp [connAt]
      | succ i =>
        have := ih i
        simpa [connAt] using this

theorem lt_length_of_aliveAt (bs : List Backend) (i : Nat) (h : aliveAt bs i = true) :
    i < bs.length := by
  by_contra hcon
  unfold aliveAt at h
  rw [List.getElem?_eq_none (by omega)] at h
  cases h

theorem CountersKept.refl (k : Nat) (st : St) : CountersKept k st st :=
  ⟨rfl, fun _ => rfl, [], by simp, by simp⟩

theorem lbLC_counters : ∀ (fuel : Nat),
    (∀ tr r st x, InRange st → lbWithLeastConnections fuel tr r st = some x →
      CountersKept (4 - GetAttemptsFromContext r) st x) ∧
    (∀ tr peer r st x, InRange st → serveHTTPLC fuel tr peer r st = some x →
      CountersKept (3 - GetAttemptsFromContext r) st x) ∧
    (∀ tr peer r st x, InRange st → errorHandlerLC fuel tr peer r st = some x →
      CountersKept (3 - GetAttemptsFromContext r) st x) := by
  intro fuel
  induction fuel with
  | zero =>
    refine ⟨?_, ?_, ?_⟩ <;> intros <;>
      simp_all [lbWithLeastConnections, serveHTTPLC, errorHandlerLC]
  | succ fuel ih =>
    obtain ⟨ih1, ih2, ih3⟩ := ih
    refine ⟨?_, ?_, ?_⟩
    · intro tr r st x hr h
      rw [lbWithLeastConnections] at h
      try simp only at h
      split_ifs at h with ha
      · cases h
        exact CountersKept.refl _ st
      · split at h
        · rename_i peer hsel
          split at h
          · rename_i st2 hsv
            cases h
            have hpeer : peer < st.pool.Backends.length :=
              lt_length_of_aliveAt _ _ (GetNextPeerForLeastConnections_alive _ _ hsel)
            have hr1 : InRange (st.write
                { st.pool with Backends := addConnections st.pool.Backends peer 1 }) := by
              intro i
              simp only [St.write, connAt_addConnections]
              split_ifs
              · exact wrapI64_range _
              · exact hr i
            obtain ⟨hlen, hconn, hs1, hhist, hge⟩ := ih2 tr peer r _ st2 hr1 hsv
            simp only [St.write, addConnections_length, connAt_addConnections] at hlen hconn hhist hge
            refine ⟨by simp [St.write, addConnections_length, hlen], ?_, ?_⟩
            · intro i
              simp only [St.write, connAt_addConnections, hconn, hlen]
              have := hr i
              split_ifs with h1
              · exact wrapI64_inc_dec _ this.1 this.2
              · rfl
            · refine ⟨[{ st.pool with Backends := addConnections st.pool.Backends peer 1 }] ++ hs1
                ++ [{ st2.pool with Backends := addConnections st2.pool.Backends peer (-1) }],
                by simp [St.write, hhist], ?_⟩
              intro i hroom p hp
              have hri := hr i
              have hk : ((4 - GetAttemptsFromContext r : Nat) : Int) =
                  ((3 - GetAttemptsFromContext r : Nat) : Int) + 1 := by omega
              simp only [List.mem_append, List.mem_singleton] at hp
              rcases hp with (hp | hp) | hp
              · subst hp
                simp only [connAt_addConnections]
                split_ifs
                · rw [wrapI64_id _ (by omega) (by omega)]; omega
                · exact le_refl _
              · have h2 := hge i (by
                  split_ifs
                  · rw [wrapI64_id _ (by omega) (by omega)]; omega
                  · omega) p hp
                refine le_trans ?_ h2
                split_ifs
                · rw [wrapI64_id _ (by omega) (by omega)]; omega
                · exact le_refl _
              · subst hp
                simp only [connAt_addConnections, hconn, hlen]
                split_ifs with h1
                · rw [wrapI64_inc_dec _ hri.1 hri.2]
                · exact le_refl _
          · cases h
        · cases h
          exact CountersKept.refl _ st
    · intro tr peer r st x hr h
      rw [serveHTTPLC] at h
      try simp only at h
      split_ifs at h with ht
      · cases h
        exact CountersKept.refl _ st
      · have h3 := ih3 tr peer r _ x (by simpa [InRange, St.emit] using hr) h
        simpa [CountersKept, St.emit] using h3
    · intro tr peer r st x hr h
      rw [errorHandlerLC] at h
      try simp only at h
      split_ifs at h with ht
      · have h2 := ih2 tr peer _ st x hr h
        exact h2
      · have hr1 : InRange (st.write
            (MarkBackendStatus st.pool (urlAt st.pool.Backends peer) false)) := by
          intro i
          simp only [St.write, MarkBackendStatus, connAt_markFirst]
          exact hr i
        obtain ⟨hlen, hconn, hs1, hhist, hge⟩ := ih1 tr _ _ x hr1 h
        simp only [St.write, MarkBackendStatus, connAt_markFirst, markFirst_length]
          at hlen hconn hhist hge
        refine ⟨hlen, hconn,
          [MarkBackendStatus st.pool (urlAt st.pool.Backends peer) false] ++ hs1,
          by simp [hhist, MarkBackendStatus], ?_⟩
        intro i hroom p hp
        simp only [List.mem_append, List.mem_singleton] at hp
        have hk : ((4 - GetAttemptsFromContext
            { r with attempts := some (GetAttemptsFromContext r + 1) } : Nat) : Int) =
            ((3 - GetAttemptsFromContext r : Nat) : Int) := by
          simp only [GetAttemptsFromContext, Option.getD_some]; omega
        rcases hp with hp | hp
        · subst hp
          simp only [MarkBackendStatus, connAt_markFirst]
          exact le_refl _
        · exact hge i (by rw [hk]; exact hroom) p hp

theorem handlerDepth_le (r : Request) : handlerDepth r ≤ 19 := by
  unfold handlerDepth serveDepth
  split_ifs <;> omega

theorem connAt_eq_getElem (bs : List Backend) (i : Nat) :
    (bs.map (fun b => b.connections))[i]? = if i < bs.length then some (connAt bs i) else none := by
  unfold connAt
  by_cases h : i < bs.length
  · simp [h, List.getElem?_eq_getElem]
  · simp [h, List.getElem?_eq_none (Nat.le_of_not_lt h)]

theorem GetNextPeerForLeastConnections_single (b : Backend) (c : Nat) (hal : b.Alive = true)
    (hb : b.PositiveWeight) : GetNextPeerForLeastConnections ⟨[b], c⟩ = some 0 := by
  have hspec := leastLoop_spec [b] [] MaxFloat64 none (by simpa using hb)
    (fun _ => ⟨rfl, by simp⟩) (by intro p hp; cases hp)
  simp only [List.length_nil, List.nil_append] at hspec
  cases hres : GetNextPeerForLeastConnections ⟨[b], c⟩ with
  | none =>
    have := hspec.1 hres b (by simp)
    rw [hal] at this; cases this
  | some p =>
    obtain ⟨b2, hb2, _⟩ := hspec.2 p hres
    cases p with
    | zero => rfl
    | succ p => simp at hb2

theorem lbLC_served (tr : Transport) (r : Request) (st : St) (peer : Nat)
    (ha : ¬ GetAttemptsFromContext r > 3)
    (hsel : GetNextPeerForLeastConnections st.pool = some peer)
    (htr : tr (st.log ++ [Event.proxy peer (GetAttemptsFromContext r) (GetRetryFromContext r)])
      peer = true) :
    lbWithLeastConnections 2 tr r st =
      some ⟨{ st.pool with
            Backends := addConnections (addConnections st.pool.Backends peer 1) peer (-1) },
        st.log ++ [Event.proxy peer (GetAttemptsFromContext r) (GetRetryFromContext r),
          Event.served peer],
        st.history ++ [{ st.pool with Backends := addConnections st.pool.Backends peer 1 },
          { st.pool with
            Backends := addConnections (addConnections st.pool.Backends peer 1) peer (-1) }]⟩ := by
  rw [lbWithLeastConnections]
  simp only [ha, hsel, if_false]
  rw [serveHTTPLC]
  simp [St.emit, St.write, htr]

/-! ### One step of the least-connections handler at a time -/

theorem lbLC_select (fuel : Nat) (tr : Transport) (r : Request) (st : St) (peer : Nat)
    (ha : ¬ GetAttemptsFromContext r > 3)
    (hsel : GetNextPeerForLeastConnections st.pool = some peer) :
    lbWithLeastConnections (fuel + 1) tr r st =
      (serveHTTPLC fuel tr peer r
          (st.write { st.pool with Backends := addConnections st.pool.Backends peer 1 })).map
        (fun st2 =>
          st2.write { st2.pool with Backends := addConnections st2.pool.Backends peer (-1) }) := by
  rw [lbWithLeastConnections]
  simp only [ha, hsel, if_false]
  cases serveHTTPLC fuel tr peer r
    (st.write { st.pool with Backends := addConnections st.pool.Backends peer 1 }) <;> rfl

theorem lbLC_exhausted (fuel : Nat) (tr : Transport) (r : Request) (st : St)
    (ha : GetAttemptsFromContext r > 3) :
    lbWithLeastConnections (fuel + 1) tr r st = some (st.emit Event.unavailable) := by
  rw [lbWithLeastConnections]
  simp only [ha, if_true]

theorem serveLC_retry (fuel : Nat) (peer : Nat) (r : Request) (st : St)
    (ht : GetRetryFromContext r < 3) :
    serveHTTPLC (fuel + 2) alwaysFails peer r st =
      serveHTTPLC fuel alwaysFails peer { r with retry := some (GetRetryFromContext r + 1) }
        (st.emit (Event.proxy peer (GetAttemptsFromContext r) (GetRetryFromContext r))) := by
  rw [serveHTTPLC]
  simp only [alwaysFails, Bool.false_eq_true, if_false]
  rw [errorHandlerLC]
  simp only [ht, if_true]

theorem serveLC_failover (fuel : Nat) (peer : Nat) (r : Request) (st : St)
    (ht : ¬ GetRetryFromContext r < 3) :
    serveHTTPLC (fuel + 2) alwaysFails peer r st =
      lbWithLeastConnections fuel alwaysFails
        { r with attempts := some (GetAttemptsFromContext r + 1) }
        ((st.emit (Event.proxy peer (GetAttemptsFromContext r) (GetRetryFromContext r))).write
          (MarkBackendStatus st.pool (urlAt st.pool.Backends peer) false)) := by
  rw [serveHTTPLC]
  simp only [alwaysFails, Bool.false_eq_true, if_false]
  rw [errorHandlerLC]
  simp only [ht, if_false]
  rfl

theorem ratio_zero (u : String) (a : Bool) : ratioOf ⟨u, a, 0, 1⟩ = F64.fin 0 := by
  have := ratioOf_exact ⟨u, a, 0, 1⟩ 0 (by decide) (by norm_num) (by norm_num) (by norm_num)
    (by norm_num)
  simpa using this

theorem select_first (c : Nat) :
    GetNextPeerForLeastConnections
      ⟨[⟨"A", true, 0, 1⟩, ⟨"B", true, 0, 1⟩, ⟨"C", true, 0, 1⟩], c⟩ = some 0 := by
  have hmax : F64.gt MaxFloat64 (F64.fin 0) = true := gt_max_fin 0 (by norm_num)
  simp only [GetNextPeerForLeastConnections, leastLoop, ratio_zero, if_true, Bool.false_eq_true,
    if_false]
  rw [hmax]
  simp [F64.gt]

theorem select_second (c : Nat) (n : Int) :
    GetNextPeerForLeastConnections
      ⟨[⟨"A", false, n, 1⟩, ⟨"B", true, 0, 1⟩, ⟨"C", true, 0, 1⟩], c⟩ = some 1 := by
  have hmax : F64.gt MaxFloat64 (F64.fin 0) = true := gt_max_fin 0 (by norm_num)
  simp only [GetNextPeerForLeastConnections, leastLoop, ratio_zero, if_true, Bool.false_eq_true,
    if_false]
  rw [hmax]
  simp [F64.gt]

theorem select_third (c : Nat) (n m : Int) :
    GetNextPeerForLeastConnections
      ⟨[⟨"A", false, n, 1⟩, ⟨"B", false, m, 1⟩, ⟨"C", true, 0, 1⟩], c⟩ = some 2 := by
  have hmax : F64.gt MaxFloat64 (F64.fin 0) = true := gt_max_fin 0 (by norm_num)
  simp only [GetNextPeerForLeastConnections, leastLoop, ratio_zero, if_true, Bool.false_eq_true,
    if_false]
  rw [hmax]
  simp [F64.gt]

theorem lbLC_select_at (fuel : Nat) (tr : Transport) (r : Request) (st : St) (peer : Nat)
    (p : ServerPool) (hsel : GetNextPeerForLeastConnections p = some peer)
    (ha : ¬ GetAttemptsFromContext r > 3) (hp : st.pool = p) :
    lbWithLeastConnections (fuel + 1) tr r st =
      (serveHTTPLC fuel tr peer r
          (st.write { st.pool with Backends := addConnections st.pool.Backends peer 1 })).map
        (fun st2 =>
          st2.write { st2.pool with Backends := addConnections st2.pool.Backends peer (-1) }) :=
  lbLC_select fuel tr r st peer ha (hp ▸ hsel)

/-- The run of `lbWithLeastConnections` for a fresh request on three alive, idle backends
whose round trips all fail. -/
theorem lbLC_failing_trace :
    (lbWithLeastConnections 16 alwaysFails Request.fresh (St.init poolThree)).map
        (fun x => (x.log, x.pool)) =
      some ([Event.proxy 0 1 0, Event.proxy 0 1 1, Event.proxy 0 1 2, Event.proxy 0 1 3,
          Event.proxy 1 2 3, Event.proxy 2 3 3, Event.unavailable],
        ⟨[⟨"A", false, 0, 1⟩, ⟨"B", false, 0, 1⟩, ⟨"C", false, 0, 1⟩], 0⟩) := by
  rw [lbLC_select_at 15 _ _ _ 0 _ (select_first 0) (by decide) (by decide)]
  rw [serveLC_retry 13 _ _ _ (by decide)]
  rw [serveLC_retry 11 _ _ _ (by decide)]
  rw [serveLC_retry 9 _ _ _ (by decide)]
  rw [serveLC_failover 7 _ _ _ (by decide)]
  rw [lbLC_select_at 6 _ _ _ 1 _ (select_second 0 1) (by decide) (by decide)]
  rw [serveLC_failover 4 _ _ _ (by decide)]
  rw [lbLC_select_at 3 _ _ _ 2 _ (select_third 0 1 1) (by decide) (by decide)]
  rw [serveLC_failover 1 _ _ _ (by decide)]
  rw [lbLC_exhausted 0 _ _ _ (by decide)]
  decide

/-! # The claims -/

/-- Claim C1, amended. On a pool of `n ≥ 1` backends with cursor `c`, let
`start = ((c + 1) mod 2 ^ 64) mod n`. `GetNextPeer` returns the backend at index
`(start + k) mod n` for the smallest `k < n` whose backend is alive and leaves the cursor
equal to that index; it returns `nil` exactly when no backend is alive; it never returns a
dead backend; and on `[A(dead), B(alive), C(alive)]` from cursor 0 the successive calls
return B, C, B, C, ... -/
theorem GetNextPeer_round_robin (s : ServerPool) (hn : 0 < s.Backends.length) :
    (∀ k, k < s.Backends.length →
      aliveAt s.Backends
        (((s.current + 1) % 2 ^ 64 % s.Backends.length + k) % s.Backends.length) = true →
      (∀ j, j < k → aliveAt s.Backends
        (((s.current + 1) % 2 ^ 64 % s.Backends.length + j) % s.Backends.length) = false) →
      GetNextPeer s =
        (some (some (((s.current + 1) % 2 ^ 64 % s.Backends.length + k) % s.Backends.length)),
          { s with current :=
              ((s.current + 1) % 2 ^ 64 % s.Backends.length + k) % s.Backends.length })) ∧
    ((GetNextPeer s).1 = some none ↔ ∀ b ∈ s.Backends, b.Alive = false) ∧
    (∀ ind, (GetNextPeer s).1 = some (some ind) → aliveAt s.Backends ind = true) ∧
    (∀ m t, t < m → (callsGetNextPeer m (poolDeadAliveAlive 0))[t]? =
      some (some (some (if t % 2 = 0 then 1 else 2)))) := by
  refine ⟨fun k hk hal hdead => GetNextPeer_first s hn k hk hal hdead,
    GetNextPeer_nil_iff s hn, fun ind h => GetNextPeer_alive s ind h, ?_⟩
  intro m t ht
  have h0 : GetNextPeer (poolDeadAliveAlive 0) = (some (some 1), poolDeadAliveAlive 1) := by
    decide
  cases m with
  | zero => omega
  | succ m =>
    cases t with
    | zero => simp [callsGetNextPeer, h0]
    | succ t =>
      have := (calls_dead_alive_alive m t (by omega)).1
      simp only [callsGetNextPeer, h0, List.getElem?_cons_succ, this]
      have e : (t + 1) % 2 = 0 ↔ ¬ (t % 2 = 0) := by omega
      by_cases ht2 : t % 2 = 0
      · simp [ht2, e]
      · simp [ht2, e]

/-- Witness for C1: the amended statement applied to `[A(dead), B(alive), C(alive)]`. -/
theorem GetNextPeer_round_robin_witness :
    0 < (poolDeadAliveAlive 0).Backends.length ∧
      (GetNextPeer (poolDeadAliveAlive 0)).1 = some (some 1) :=
  ⟨by decide, by
    have h := (GetNextPeer_round_robin (poolDeadAliveAlive 0) (by decide)).1 0 (by decide)
      (by decide) (by decide)
    rw [h]; decide⟩

/-- Counterexample to C1 as stated: with three alive backends and the cursor at
`2 ^ 64 - 1`, the claimed index `(c + 1 + 0) mod 3` is 1 and that backend is alive, but
`atomic.AddUint64` wraps to 0 and the call returns the backend at index 0. -/
theorem GetNextPeer_cursor_wrap_counterexample :
    (poolWrap.current + 1 + 0) % poolWrap.Backends.length = 1 ∧
    aliveAt poolWrap.Backends ((poolWrap.current + 1 + 0) % poolWrap.Backends.length) = true ∧
    GetNextPeer poolWrap = (some (some 0), { poolWrap with current := 0 }) := by
  decide

/-- Claim C2. On a pool whose backends all have a positive weight (fields being `int64`
values), `GetNextPeerForLeastConnections` returns `nil` exactly when no backend is alive;
otherwise the backend it returns is alive, no alive backend has a strictly smaller ratio
`connections / weight`, and every alive backend before it has a strictly greater one, so
equal ratios go to the earlier index. `[A(0, 1), B(0, 1)]` gives A and
`[A(5, 1), B(1, 1)]` gives B. -/
theorem GetNextPeerForLeastConnections_spec (s : ServerPool)
    (hw : ∀ b ∈ s.Backends, (-(2 ^ 63) ≤ b.connections ∧ b.connections < 2 ^ 63) ∧
      (0 < b.weights ∧ b.weights < 2 ^ 63)) :
    (GetNextPeerForLeastConnections s = none ↔ ∀ b ∈ s.Backends, b.Alive = false) ∧
    (∀ p, GetNextPeerForLeastConnections s = some p →
      ∃ b, s.Backends[p]? = some b ∧ b.Alive = true ∧
        (∀ (j : Nat) (c : Backend), s.Backends[j]? = some c → c.Alive = true →
          F64.gt (ratioOf b) (ratioOf c) = false) ∧
        (∀ (j : Nat) (c : Backend), j < p → s.Backends[j]? = some c → c.Alive = true →
          F64.gt (ratioOf c) (ratioOf b) = true)) ∧
    (∀ c, GetNextPeerForLeastConnections ⟨[⟨"A", true, 0, 1⟩, ⟨"B", true, 0, 1⟩], c⟩ = some 0) ∧
    (∀ c, GetNextPeerForLeastConnections ⟨[⟨"A", true, 5, 1⟩, ⟨"B", true, 1, 1⟩], c⟩ = some 1) := by
  have hspec := leastLoop_spec s.Backends [] MaxFloat64 none (by simpa using hw)
    (fun _ => ⟨rfl, by simp⟩) (by intro p hp; cases hp)
  simp only [List.length_nil, List.nil_append] at hspec
  refine ⟨⟨hspec.1, ?_⟩, hspec.2, ?_, ?_⟩
  · intro hdead
    cases hres : GetNextPeerForLeastConnections s with
    | none => rfl
    | some p =>
      obtain ⟨b, hb⟩ := hspec.2 p hres
      have := hdead b (List.getElem?_mem hb.1)
      rw [hb.2.1] at this; cases this
  · intro c
    have h0 : ratioOf ⟨"A", true, 0, 1⟩ = F64.fin ((0 : ℤ) : ℚ) :=
      ratioOf_exact _ 0 (by decide) (by decide) (by decide) (by decide) (by decide)
    have h1 : ratioOf ⟨"B", true, 0, 1⟩ = F64.fin ((0 : ℤ) : ℚ) :=
      ratioOf_exact _ 0 (by decide) (by decide) (by decide) (by decide) (by decide)
    simp only [GetNextPeerForLeastConnections, leastLoop, h0, h1, if_true]
    rw [gt_max_fin _ (by norm_num)]
    simp [F64.gt]
  · intro c
    have h0 : ratioOf ⟨"A", true, 5, 1⟩ = F64.fin ((5 : ℤ) : ℚ) :=
      ratioOf_exact _ 5 (by decide) (by decide) (by decide) (by decide) (by decide)
    have h1 : ratioOf ⟨"B", true, 1, 1⟩ = F64.fin ((1 : ℤ) : ℚ) :=
      ratioOf_exact _ 1 (by decide) (by decide) (by decide) (by decide) (by decide)
    simp only [GetNextPeerForLeastConnections, leastLoop, h0, h1, if_true]
    rw [gt_max_fin _ (by norm_num)]
    simp [F64.gt]

/-- Witness for C2: a pool with positive weights and one alive backend does not yield
`nil`. -/
theorem GetNextPeerForLeastConnections_spec_witness :
    (∀ b ∈ (⟨[⟨"A", true, 5, 1⟩, ⟨"B", false, 1, 1⟩], 0⟩ : ServerPool).Backends,
      (-(2 ^ 63) ≤ b.connections ∧ b.connections < 2 ^ 63) ∧
        (0 < b.weights ∧ b.weights < 2 ^ 63)) ∧
    ¬ (GetNextPeerForLeastConnections ⟨[⟨"A", true, 5, 1⟩, ⟨"B", false, 1, 1⟩], 0⟩ = none) :=
  ⟨by decide, fun h =>
    absurd ((GetNextPeerForLeastConnections_spec
      ⟨[⟨"A", true, 5, 1⟩, ⟨"B", false, 1, 1⟩], 0⟩ (by decide)).1.mp h) (by decide)⟩

/-- Claim C3, amended. On `[A(load 4, weight 4), B(load 0, weight 1)]`, both alive, A has
ratio 1.0 and B has ratio 0.0, and `GetNextPeerForLeastConnections` returns B. -/
theorem leastConnections_weighting (uA uB : String) (c : Nat) :
    ratioOf ⟨uA, true, 4, 4⟩ = F64.fin 1 ∧ ratioOf ⟨uB, true, 0, 1⟩ = F64.fin 0 ∧
    GetNextPeerForLeastConnections ⟨[⟨uA, true, 4, 4⟩, ⟨uB, true, 0, 1⟩], c⟩ = some 1 := by
  have h0 : ratioOf ⟨uA, true, 4, 4⟩ = F64.fin ((1 : ℤ) : ℚ) :=
    ratioOf_exact _ 1 (by decide) (by norm_num) (by norm_num) (by norm_num) (by norm_num)
  have h1 : ratioOf ⟨uB, true, 0, 1⟩ = F64.fin ((0 : ℤ) : ℚ) :=
    ratioOf_exact _ 0 (by decide) (by norm_num) (by norm_num) (by norm_num) (by norm_num)
  refine ⟨by simpa using h0, by simpa using h1, ?_⟩
  simp only [GetNextPeerForLeastConnections, leastLoop, h0, h1, if_true]
  rw [gt_max_fin _ (by norm_num)]
  simp [F64.gt]

/-- Counterexample to C3 as stated: it is not the case that both ratios are 1.0 and that
A is returned; the ratio of B is `0 / 1 = 0`. -/
theorem leastConnections_weighting_counterexample :
    ¬ (ratioOf ⟨"A", true, 4, 4⟩ = F64.fin 1 ∧ ratioOf ⟨"B", true, 0, 1⟩ = F64.fin 1 ∧
      GetNextPeerForLeastConnections ⟨[⟨"A", true, 4, 4⟩, ⟨"B", true, 0, 1⟩], 0⟩ = some 0) := by
  intro h
  have h1 : ratioOf ⟨"B", true, 0, 1⟩ = F64.fin ((0 : ℤ) : ℚ) :=
    ratioOf_exact _ 0 (by decide) (by decide) (by decide) (by decide) (by decide)
  rw [h1] at h
  have := h.2.1
  simp at this

/-- Claim C4. On a pool of `N ≥ 1` backends (a slice, so `N < 2 ^ 63`) that are all alive,
from any cursor value, `M` consecutive `GetNextPeer` calls return `M` backends; each
backend is returned `⌊M / N⌋` or `⌈M / N⌉` times; every call returns the successor
(modulo `N`) of the index returned by the call before; and two calls fewer than `N` apart
never return the same backend. -/
theorem GetNextPeer_fair (s : ServerPool) (hn : 0 < s.Backends.length)
    (hlen : s.Backends.length < 2 ^ 63) (hal : ∀ b ∈ s.Backends, b.Alive = true) (M : Nat) :
    (callsGetNextPeer M s).length = M ∧
    (∀ j, j < s.Backends.length →
      (callsGetNextPeer M s).count (some (some j)) = M / s.Backends.length ∨
      (callsGetNextPeer M s).count (some (some j)) =
        (M + s.Backends.length - 1) / s.Backends.length) ∧
    (∀ t, t < M → ∃ i, i < s.Backends.length ∧
      (callsGetNextPeer M s)[t]? = some (some (some i)) ∧
      (t + 1 < M →
        (callsGetNextPeer M s)[t + 1]? = some (some (some ((i + 1) % s.Backends.length))))) ∧
    (∀ t u, t < u → u < t + s.Backends.length → u < M →
      (callsGetNextPeer M s)[t]? ≠ (callsGetNextPeer M s)[u]?) := by
  refine ⟨callsGetNextPeer_length M s, ?_, ?_, ?_⟩
  · intro j hj
    rw [count_calls_all_alive M s hn hlen hal j, count_shifted _ _ _ _ hn hj]
    have hc := ceil_div_cases M s.Backends.length hn
    by_cases h0 : M % s.Backends.length = 0
    · left; rw [h0]; simp
    · split_ifs
      · right; rw [hc.2 h0]
      · left; rfl
  · intro t ht
    refine ⟨((s.current + 1) % 2 ^ 64 % s.Backends.length + t) % s.Backends.length,
      Nat.mod_lt _ hn, calls_all_alive M s hn hlen hal t ht, ?_⟩
    intro ht1
    rw [calls_all_alive M s hn hlen hal (t + 1) ht1]
    congr 3
    rw [Nat.mod_add_mod, Nat.mod_add_mod, Nat.add_assoc, Nat.mod_add_mod]
  · intro t u htu hut huM h
    rw [calls_all_alive M s hn hlen hal t (by omega), calls_all_alive M s hn hlen hal u huM] at h
    simp only [Option.some.injEq] at h
    have hmod : ((s.current + 1) % 2 ^ 64 % s.Backends.length + t) ≡
        ((s.current + 1) % 2 ^ 64 % s.Backends.length + u) [MOD s.Backends.length] := h
    have h2 : t ≡ u [MOD s.Backends.length] := Nat.ModEq.add_left_cancel (Nat.ModEq.refl _) hmod
    have h3 : s.Backends.length ∣ u - t :=
      Nat.dvd_of_mod_eq_zero (Nat.sub_mod_eq_zero_of_mod_eq h2.symm)
    have h4 := Nat.le_of_dvd (by omega) h3
    omega

/-- Witness for C4: seven calls on three alive backends, starting from the largest cursor
value. -/
theorem GetNextPeer_fair_witness :
    0 < poolWrap.Backends.length ∧ poolWrap.Backends.length < 2 ^ 63 ∧
    (∀ b ∈ poolWrap.Backends, b.Alive = true) ∧
    ((callsGetNextPeer 7 poolWrap).count (some (some 0)) = 7 / poolWrap.Backends.length ∨
      (callsGetNextPeer 7 poolWrap).count (some (some 0)) =
        (7 + poolWrap.Backends.length - 1) / poolWrap.Backends.length) :=
  ⟨by decide, by decide, by decide,
    (GetNextPeer_fair poolWrap (by decide) (by decide) (by decide) 7).2.1 0 (by decide)⟩

/-- Claim C5, evaluation of the code. A fresh request on three alive backends whose round
trips all fail: under `lb` and under `lbWithLeastConnections` the first selected backend
is invoked four times (retry counts 0 to 3), the second and the third once each, with
retry count 3 and no retry, and all three end up marked dead. -/
theorem retry_budget_not_reset :
    (lb 16 alwaysFails Request.fresh (St.init poolThree)).map (fun x => (x.log, x.pool)) =
      some ([Event.proxy 1 1 0, Event.proxy 1 1 1, Event.proxy 1 1 2, Event.proxy 1 1 3,
          Event.proxy 2 2 3, Event.proxy 0 3 3, Event.unavailable],
        ⟨[⟨"A", false, 0, 1⟩, ⟨"B", false, 0, 1⟩, ⟨"C", false, 0, 1⟩], 0⟩) ∧
    (lbWithLeastConnections 16 alwaysFails Request.fresh (St.init poolThree)).map
        (fun x => (x.log, x.pool)) =
      some ([Event.proxy 0 1 0, Event.proxy 0 1 1, Event.proxy 0 1 2, Event.proxy 0 1 3,
          Event.proxy 1 2 3, Event.proxy 2 3 3, Event.unavailable],
        ⟨[⟨"A", false, 0, 1⟩, ⟨"B", false, 0, 1⟩, ⟨"C", false, 0, 1⟩], 0⟩) :=
  ⟨by decide, lbLC_failing_trace⟩

/-- Claim C6. On a non-empty pool whose round trips all fail, a fresh request (attempt
count 1, retry count 0) entering `lb` or `lbWithLeastConnections` terminates (any bound of
16 or more on the call depth gives the same final state); what happened is a list of at
most 9 proxy invocations, each made with an attempt count of at most 3, followed by
exactly one 503 response. -/
theorem failing_request_is_bounded (s : ServerPool) (hn : 0 < s.Backends.length) :
    (∃ x, (∀ fuel, 16 ≤ fuel → lb fuel alwaysFails Request.fresh (St.init s) = some x) ∧
      ∃ ps, x.log = ps ++ [Event.unavailable] ∧ ps.length ≤ 9 ∧
        ∀ e ∈ ps, ∃ i a t, e = Event.proxy i a t ∧ a ≤ 3) ∧
    (∃ x, (∀ fuel, 16 ≤ fuel →
        lbWithLeastConnections fuel alwaysFails Request.fresh (St.init s) = some x) ∧
      ∃ ps, x.log = ps ++ [Event.unavailable] ∧ ps.length ≤ 9 ∧
        ∀ e ∈ ps, ∃ i a t, e = Event.proxy i a t ∧ a ≤ 3) := by
  constructor
  · obtain ⟨x, hx⟩ := (lb_terminates 16).1 alwaysFails Request.fresh (St.init s) (by decide)
    refine ⟨x, ?_, ?_⟩
    · intro fuel hf
      have := lb_fuel_le _ _ _ _ _ hx (fuel - 16)
      rwa [show 16 + (fuel - 16) = fuel by omega] at this
    · obtain ⟨evs, h1, ps, h2, h3, h4⟩ := (lb_budget 16).1 Request.fresh (St.init s) x hn hx
      refine ⟨ps, by simpa [St.init, h2] using h1, ?_, h4⟩
      have : handlerBudget Request.fresh = 6 := by decide
      omega
  · obtain ⟨x, hx⟩ := (lbLC_terminates 16).1 alwaysFails Request.fresh (St.init s) (by decide)
    refine ⟨x, ?_, ?_⟩
    · intro fuel hf
      have := lbLC_fuel_le _ _ _ _ _ hx (fuel - 16)
      rwa [show 16 + (fuel - 16) = fuel by omega] at this
    · obtain ⟨evs, h1, ps, h2, h3, h4⟩ := (lbLC_budget 16).1 Request.fresh (St.init s) x hx
      refine ⟨ps, by simpa [St.init, h2] using h1, ?_, h4⟩
      have : handlerBudget Request.fresh = 6 := by decide
      omega

/-- Witness for C6: three alive backends. -/
theorem failing_request_is_bounded_witness :
    0 < poolThree.Backends.length ∧
    ∃ x, (∀ fuel, 16 ≤ fuel → lb fuel alwaysFails Request.fresh (St.init poolThree) = some x) ∧
      ∃ ps, x.log = ps ++ [Event.unavailable] ∧ ps.length ≤ 9 ∧
        ∀ e ∈ ps, ∃ i a t, e = Event.proxy i a t ∧ a ≤ 3 :=
  ⟨by decide, (failing_request_is_bounded poolThree (by decide)).1⟩

/-- Claim C7, amended. Whatever the transport does, a run of `lbWithLeastConnections` on a
pool of `int64` counters terminates, every counter has on return the value it had on
entry, and a counter whose entry value leaves room for the increments still possible
(`entry + (4 - attemptCount) < 2 ^ 63`, that is `entry ≤ 2 ^ 63 - 4` for a fresh request)
is never below its entry value at any point of the run. -/
theorem connections_balanced (tr : Transport) (r : Request) (s : ServerPool)
    (hrange : ∀ b ∈ s.Backends, -(2 ^ 63) ≤ b.connections ∧ b.connections < 2 ^ 63) :
    ∃ x, (∀ fuel, 19 ≤ fuel → lbWithLeastConnections fuel tr r (St.init s) = some x) ∧
      x.pool.Backends.map (fun b => b.connections) = s.Backends.map (fun b => b.connections) ∧
      ∀ i, connAt s.Backends i + ((4 - GetAttemptsFromContext r : Nat) : Int) < 2 ^ 63 →
        ∀ p ∈ x.history, connAt s.Backends i ≤ connAt p.Backends i := by
  obtain ⟨x, hx⟩ := (lbLC_terminates 19).1 tr r (St.init s) (handlerDepth_le r)
  have hin : InRange (St.init s) := by
    intro i
    simp only [St.init, connAt]
    cases hb : s.Backends[i]? with
    | none => simp
    | some b => exact hrange b (List.getElem?_mem hb)
  obtain ⟨hlen, hconn, hs, hhist, hge⟩ := (lbLC_counters 19).1 tr r (St.init s) x hin hx
  simp only [St.init, List.nil_append] at hlen hconn hhist hge
  refine ⟨x, ?_, ?_, ?_⟩
  · intro fuel hf
    have := lbLC_fuel_le _ _ _ _ _ hx (fuel - 19)
    rwa [show 19 + (fuel - 19) = fuel by omega] at this
  · apply List.ext_getElem?
    intro i
    rw [connAt_eq_getElem, connAt_eq_getElem, hlen, hconn]
  · intro i hroom p hp
    rw [hhist] at hp
    exact hge i hroom p hp

/-- Witness for C7: a fresh request on three idle backends whose round trips all fail. -/
theorem connections_balanced_witness :
    (∀ b ∈ poolThree.Backends, -(2 ^ 63) ≤ b.connections ∧ b.connections < 2 ^ 63) ∧
    ∃ x, (∀ fuel, 19 ≤ fuel →
        lbWithLeastConnections fuel alwaysFails Request.fresh (St.init poolThree) = some x) ∧
      x.pool.Backends.map (fun b => b.connections) =
        poolThree.Backends.map (fun b => b.connections) ∧
      ∀ i, connAt poolThree.Backends i + ((4 - GetAttemptsFromContext Request.fresh : Nat) : Int)
          < 2 ^ 63 →
        ∀ p ∈ x.history, connAt poolThree.Backends i ≤ connAt p.Backends i :=
  ⟨by decide, connections_balanced alwaysFails Request.fresh poolThree (by decide)⟩

/-- Counterexample to C7 as stated: with the counter at `2 ^ 63 - 1` on entry and a
round trip that succeeds, the increment wraps and the counter is `-2 ^ 63` during the
call, below its entry value and negative; it is back at `2 ^ 63 - 1` on return. -/
theorem connections_wrap_counterexample :
    lbWithLeastConnections 2 alwaysSucceeds Request.fresh (St.init poolMax) =
      some ⟨poolMax, [Event.proxy 0 1 0, Event.served 0],
        [⟨[⟨"A", true, -(2 ^ 63), 1⟩], 0⟩, poolMax]⟩ := by
  have hsel : GetNextPeerForLeastConnections poolMax = some 0 :=
    GetNextPeerForLeastConnections_single _ _ rfl (by
      unfold Backend.PositiveWeight; decide)
  rw [lbLC_served _ _ _ 0 (by decide) hsel rfl]
  decide

/-- Claim C8. On a pool of at least one backend, all dead, `GetNextPeer` and
`GetNextPeerForLeastConnections` return `nil`, and `lb` and `lbWithLeastConnections`
entered with an attempt count of at most 3 answer 503 without any proxy invocation and
leave every backend as it was (`lb` only advances the cursor). -/
theorem all_dead_unavailable (s : ServerPool) (hn : 0 < s.Backends.length)
    (hdead : ∀ b ∈ s.Backends, b.Alive = false) :
    GetNextPeer s = (some none, { s with current := (s.current + 1) % 2 ^ 64 }) ∧
    GetNextPeerForLeastConnections s = none ∧
    (∀ (fuel : Nat) (tr : Transport) (r : Request) (log : List Event) (hist : List ServerPool),
      GetAttemptsFromContext r ≤ 3 →
      lb (fuel + 1) tr r ⟨s, log, hist⟩ =
        some ⟨{ s with current := (s.current + 1) % 2 ^ 64 }, log ++ [Event.unavailable],
          hist ++ [{ s with current := (s.current + 1) % 2 ^ 64 }]⟩) ∧
    (∀ (fuel : Nat) (tr : Transport) (r : Request) (log : List Event) (hist : List ServerPool),
      GetAttemptsFromContext r ≤ 3 →
      lbWithLeastConnections (fuel + 1) tr r ⟨s, log, hist⟩ =
        some ⟨s, log ++ [Event.unavailable], hist⟩) := by
  have h1 := GetNextPeer_all_dead s hn hdead
  have h2 : GetNextPeerForLeastConnections s = none := leastLoop_all_dead s.Backends hdead 0 _ _
  refine ⟨h1, h2, ?_, ?_⟩
  · intro fuel tr r log hist ha
    simp only [lb, Nat.not_lt.mpr ha, if_false, h1]
    rfl
  · intro fuel tr r log hist ha
    simp only [lbWithLeastConnections, Nat.not_lt.mpr ha, if_false, h2]
    rfl

/-- Witness for C8: a pool of one dead backend. -/
theorem all_dead_unavailable_witness :
    0 < (⟨[⟨"A", false, 0, 1⟩], 7⟩ : ServerPool).Backends.length ∧
    (∀ b ∈ (⟨[⟨"A", false, 0, 1⟩], 7⟩ : ServerPool).Backends, b.Alive = false) ∧
    GetNextPeerForLeastConnections ⟨[⟨"A", false, 0, 1⟩], 7⟩ = none :=
  ⟨by decide, by decide,
    (all_dead_unavailable ⟨[⟨"A", false, 0, 1⟩], 7⟩ (by decide) (by decide)).2.1⟩

/-- Claim C9, amended. `configLC` and `configRR` check no weight: they fail only on a URL
that does not parse, and otherwise append one alive, idle backend per descriptor with
the weight of the descriptor unchanged, whatever its sign. -/
theorem config_keeps_weights (parse : String → Option String) (serverInfo : ServerInfos)
    (pool : ServerPool) :
    (configLC parse serverInfo pool ≠ none ↔ ∀ tok ∈ serverInfo.Backends, parse tok.Url ≠ none) ∧
    (∀ p, configLC parse serverInfo pool = some p →
      p = { pool with Backends := pool.Backends ++ serverInfo.Backends.map (fun tok =>
        { URL := (parse tok.Url).getD "", Alive := true, connections := 0,
          weights := tok.Weight }) }) ∧
    configRR parse serverInfo pool = configLC parse serverInfo pool :=
  ⟨(configLoop_spec parse serverInfo.Backends pool).1,
    (configLoop_spec parse serverInfo.Backends pool).2, rfl⟩

/-- Counterexample to C9 as stated: a descriptor of weight 0 and one of weight -2 are
accepted and added to the pool, and the ratio of the zero-weight backend is the NaN
`0.0 / 0.0`. -/
theorem config_zero_weight_counterexample :
    configLC some ⟨3031, "least-connections", [⟨"http://localhost:8081", 0⟩]⟩ ⟨[], 0⟩
      = some ⟨[⟨"http://localhost:8081", true, 0, 0⟩], 0⟩ ∧
    configRR some ⟨3030, "round-robin", [⟨"http://localhost:8081", -2⟩]⟩ ⟨[], 0⟩
      = some ⟨[⟨"http://localhost:8081", true, 0, -2⟩], 0⟩ ∧
    ratioOf ⟨"http://localhost:8081", true, 0, 0⟩ = F64.nan := by
  refine ⟨by decide, by decide, ?_⟩
  have h0 : F64.ofInt 0 = F64.fin 0 := by
    simpa [F64.ofInt] using F64.ofRat_intCast 0 (by decide)
  simp [ratioOf, h0, F64.div]

/-- Claim C10, amended. If X is the first backend of the pool with its URL (so in
particular when URLs are pairwise distinct), then after `MarkBackendStatus(X.URL, false)`
X is dead and neither `GetNextPeer` nor `GetNextPeerForLeastConnections` returns X; and
the error handler of X, once retries are exhausted, is the re-entered handler run on
exactly that marked pool. -/
theorem marked_backend_not_selected (s : ServerPool) (i : Nat) (x : Backend)
    (hx : s.Backends[i]? = some x)
    (hfirst : ∀ (j : Nat) (y : Backend), j < i → s.Backends[j]? = some y → y.URL ≠ x.URL) :
    aliveAt (MarkBackendStatus s (urlAt s.Backends i) false).Backends i = false ∧
    (GetNextPeer (MarkBackendStatus s (urlAt s.Backends i) false)).1 ≠ some (some i) ∧
    GetNextPeerForLeastConnections (MarkBackendStatus s (urlAt s.Backends i) false) ≠ some i ∧
    (∀ (fuel : Nat) (tr : Transport) (r : Request) (log : List Event) (hist : List ServerPool),
      3 ≤ GetRetryFromContext r →
      errorHandlerRR (fuel + 1) tr i r ⟨s, log, hist⟩ =
        lb fuel tr { r with attempts := some (GetAttemptsFromContext r + 1) }
          ⟨MarkBackendStatus s (urlAt s.Backends i) false, log,
            hist ++ [MarkBackendStatus s (urlAt s.Backends i) false]⟩) ∧
    (∀ (fuel : Nat) (tr : Transport) (r : Request) (log : List Event) (hist : List ServerPool),
      3 ≤ GetRetryFromContext r →
      errorHandlerLC (fuel + 1) tr i r ⟨s, log, hist⟩ =
        lbWithLeastConnections fuel tr { r with attempts := some (GetAttemptsFromContext r + 1) }
          ⟨MarkBackendStatus s (urlAt s.Backends i) false, log,
            hist ++ [MarkBackendStatus s (urlAt s.Backends i) false]⟩) := by
  have hdead : aliveAt (MarkBackendStatus s (urlAt s.Backends i) false).Backends i = false := by
    rw [urlAt_eq _ _ _ hx]
    simp [aliveAt, MarkBackendStatus, markFirst_first s.Backends false i x hx hfirst]
  refine ⟨hdead, ?_, ?_, ?_, ?_⟩
  · intro h
    have := GetNextPeer_alive _ _ h
    rw [hdead] at this; cases this
  · intro h
    have := GetNextPeerForLeastConnections_alive _ _ h
    rw [hdead] at this; cases this
  · intro fuel tr r log hist ht
    rw [errorHandlerRR]
    simp only [Nat.not_lt.mpr ht, if_false]
    rfl
  · intro fuel tr r log hist ht
    rw [errorHandlerLC]
    simp only [Nat.not_lt.mpr ht, if_false]
    rfl

/-- Witness for C10: the second of three backends with distinct URLs. -/
theorem marked_backend_not_selected_witness :
    poolThree.Backends[1]? = some ⟨"B", true, 0, 1⟩ ∧
    (∀ (j : Nat) (y : Backend), j < 1 → poolThree.Backends[j]? = some y →
      y.URL ≠ (⟨"B", true, 0, 1⟩ : Backend).URL) ∧
    (GetNextPeer (MarkBackendStatus poolThree (urlAt poolThree.Backends 1) false)).1 ≠
      some (some 1) :=
  have h : ∀ (j : Nat) (y : Backend), j < 1 → poolThree.Backends[j]? = some y →
      y.URL ≠ (⟨"B", true, 0, 1⟩ : Backend).URL := by
    intro j y hj hy
    have hj0 : j = 0 := by omega
    subst hj0
    simp [poolThree] at hy
    subst hy
    decide
  ⟨by decide, h, (marked_backend_not_selected poolThree 1 ⟨"B", true, 0, 1⟩ (by decide) h).2.1⟩

/-- Counterexample to C10 as stated: with two backends sharing a URL, round-robin selects
the second one, its error handler marks the first one dead, the second one stays alive
and is selected again by the re-entered handler, for every remaining attempt. -/
theorem duplicate_url_counterexample :
    GetNextPeer poolDup = (some (some 1), ⟨[⟨"u", true, 0, 1⟩, ⟨"u", true, 0, 1⟩], 1⟩) ∧
    MarkBackendStatus ⟨[⟨"u", true, 0, 1⟩, ⟨"u", true, 0, 1⟩], 1⟩
        (urlAt [⟨"u", true, 0, 1⟩, ⟨"u", true, 0, 1⟩] 1) false =
      ⟨[⟨"u", false, 0, 1⟩, ⟨"u", true, 0, 1⟩], 1⟩ ∧
    GetNextPeer ⟨[⟨"u", false, 0, 1⟩, ⟨"u", true, 0, 1⟩], 1⟩ =
      (some (some 1), ⟨[⟨"u", false, 0, 1⟩, ⟨"u", true, 0, 1⟩], 1⟩) ∧
    (lb 16 alwaysFails Request.fresh (St.init poolDup)).map (fun x => x.log) =
      some [Event.proxy 1 1 0, Event.proxy 1 1 1, Event.proxy 1 1 2, Event.proxy 1 1 3,
        Event.proxy 1 2 3, Event.proxy 1 3 3, Event.unavailable] := by
  decide

end LoadBalancer
